import Mathlib

/-
Verification development for the positionless-cpp repository.

The C++ subsystem consists of three layers:
  * `partitioning<Iterator>` (src/include/positionless/partitioning.hpp):
    a vector of boundary iterators over a range, defining contiguous parts;
  * `algorithm_data<BaseIterator>` (src/include/positionless/detail/algorithm_data.hpp):
    the handle table mapping iterator indices to part indices (with tombstones);
  * `partitioning_iterator<BaseIterator>` (src/include/positionless/translation.hpp):
    the cursor type owning one handle in a shared table.

Shallow embedding conventions:
  * The underlying range is [a, b) over abstract positions modelled as `Nat`
    (a forward iterator is identified with its position).  A boundary iterator
    is therefore a `Nat`; `std::vector<Iterator> boundaries_` is a `List Nat`.
  * `PRECONDITION(e)` aborts (assert/std::terminate in all build modes, see
    detail/precondition.hpp).  Every operation that can abort is modelled as an
    `Option`-returning function; `none` means a contract violation fires.
  * `size_t` values are modelled as `Nat`.  The one place where a reachable
    computation performs wrapping size_t arithmetic is `increment`'s call
    `partitioning_.grow(part - 1)` with `part = 0`; we model that subtraction
    with `sub1w` (subtraction modulo 2^64) and give `grow` the matching
    `(i + 1) % 2^64` index reduction, so the wraparound composition
    `grow(0 - 1)` hits index 0 exactly as the machine does.  All other index
    arithmetic in reachable states stays far below 2^64.
  * Tombstones: `parts_mapping_` holds `size_t(-1)` for destroyed iterators;
    we model an entry as `Option Nat` (`none` = tombstone), which is faithful
    because the tombstone value is explicitly excluded in the one arithmetic
    transform applied to entries.
-/

namespace Positionless

/-- The number of values of the C++ `size_t` type (64-bit). -/
def W : Nat := 2 ^ 64

/-- Subtraction of one in `size_t` arithmetic: `a - 1` computed modulo 2^64
(for `a < 2^64` this is `a - 1` when `a > 0` and `2^64 - 1` when `a = 0`). -/
def sub1w (a : Nat) : Nat := (a + (W - 1)) % W

/-! ## List helpers

The C++ code manipulates `std::vector` through indexed access, `insert` and
`erase`; we model the vector as a `List` and these primitives with `take`/
`drop` arithmetic, and prove the small indexing lemmas used throughout. -/

/-- `vector::insert(begin() + i, x)`: insert `x` before index `i`. -/
def insertAt (l : List Nat) (i : Nat) (x : Nat) : List Nat :=
  l.take i ++ x :: l.drop i

/-- `vector::insert(begin() + i, c, x)`: insert `c` copies of `x` before index `i`. -/
def insertN (l : List Nat) (i : Nat) (c : Nat) (x : Nat) : List Nat :=
  l.take i ++ List.replicate c x ++ l.drop i

/-- `vector::erase(begin() + i)`: remove the element at index `i`. -/
def eraseAt (l : List Nat) (i : Nat) : List Nat :=
  l.take i ++ l.drop (i + 1)

/-! ## The `partitioning` class (src/include/positionless/partitioning.hpp)

Boundary iterators over the range are positions (`Nat`); `boundaries_` is the
vector of boundaries.  Every member function that contains a `PRECONDITION`
returns an `Option`; `none` models the check firing (assert/terminate). -/

/-- `partitioning<Iterator>`: the vector `boundaries_` of part boundaries.
The first element is the begin iterator of the range, the last the end. -/
structure partitioning where
  boundaries : List Nat
deriving DecidableEq, Repr

namespace partitioning

/-- The constructor `partitioning(begin, end)`: boundaries `{begin, end}`. -/
def init (a b : Nat) : partitioning := ⟨[a, b]⟩

/-- `parts_count()`: `boundaries_.size() - 1`. -/
def parts_count (p : partitioning) : Nat := p.boundaries.length - 1

/-- `boundaries_[i]` (indexed read; call sites keep `i` in bounds). -/
def bnd (p : partitioning) (i : Nat) : Nat := p.boundaries.getD i 0

/-- The raw emptiness test `part(i).first == part(i).second` (no bounds check;
used only under guards that have already established `i < parts_count()`). -/
def emptyB (p : partitioning) (i : Nat) : Prop := p.bnd i = p.bnd (i + 1)

instance (p : partitioning) (i : Nat) : Decidable (p.emptyB i) := by
  unfold emptyB; infer_instance

/-- `part(i)`: the pair `{boundaries_[i], boundaries_[i+1]}` after
`PRECONDITION(i < parts_count())`. -/
def part (p : partitioning) (i : Nat) : Option (Nat × Nat) :=
  if i < p.parts_count then some (p.bnd i, p.bnd (i + 1)) else none

/-- `is_part_empty(i)` after `PRECONDITION(i < parts_count())`. -/
def is_part_empty (p : partitioning) (i : Nat) : Option Bool :=
  if i < p.parts_count then some (decide (p.emptyB i)) else none

/-- `part_size(i)`: `std::distance(boundaries_[i], boundaries_[i+1])` after
`PRECONDITION(i < parts_count())` (positions, so the distance is the
truncated difference; on monotone boundaries this is the exact distance). -/
def part_size (p : partitioning) (i : Nat) : Option Nat :=
  if i < p.parts_count then some (p.bnd (i + 1) - p.bnd i) else none

/-- `grow(i)`: preconditions `i + 1 < parts_count()` and
`!is_part_empty(i + 1)`, then `boundaries_[i + 1]++`.  The index `i + 1` is
computed in `size_t`, hence the reduction modulo 2^64 (reachable callers pass
either a small index or `part - 1` with `part = 0`, see `increment`). -/
def grow (p : partitioning) (i : Nat) : Option partitioning :=
  let j := (i + 1) % W
  if j < p.parts_count ∧ ¬ p.emptyB j then
    some ⟨p.boundaries.set j (p.bnd j + 1)⟩
  else none

/-- The step-by-step loop of `grow_by` for forward iterators: `n` times
`PRECONDITION(!is_part_empty(i + 1)); boundaries_[i + 1]++` (the emptiness
check re-runs `is_part_empty`'s own bound check each iteration). -/
def growLoop (i : Nat) : Nat → partitioning → Option partitioning
  | 0, p => some p
  | n + 1, p =>
    if i + 1 < p.parts_count ∧ ¬ p.emptyB (i + 1) then
      growLoop i n ⟨p.boundaries.set (i + 1) (p.bnd (i + 1) + 1)⟩
    else none

/-- `grow_by(i, n)`, forward-iterator branch: `PRECONDITION(i+1 < parts_count())`
then the step loop. -/
def grow_by_fwd (p : partitioning) (i n : Nat) : Option partitioning :=
  if i + 1 < p.parts_count then growLoop i n p else none

/-- `grow_by(i, n)`, random-access branch: `PRECONDITION(i+1 < parts_count())`,
`PRECONDITION(distance(part(i+1)) >= n)`, then `boundaries_[i + 1] += n`. -/
def grow_by_ra (p : partitioning) (i n : Nat) : Option partitioning :=
  if i + 1 < p.parts_count then
    if n ≤ p.bnd (i + 2) - p.bnd (i + 1) then
      some ⟨p.boundaries.set (i + 1) (p.bnd (i + 1) + n)⟩
    else none
  else none

/-- `transfer_to_prev(i)`: preconditions `0 < i` and `i < parts_count()`,
then `boundaries_[i] = boundaries_[i + 1]`. -/
def transfer_to_prev (p : partitioning) (i : Nat) : Option partitioning :=
  if 0 < i ∧ i < p.parts_count then
    some ⟨p.boundaries.set i (p.bnd (i + 1))⟩
  else none

/-- `transfer_to_next(i)`: precondition `i < parts_count() - 1`, then
`boundaries_[i + 1] = boundaries_[i]`. -/
def transfer_to_next (p : partitioning) (i : Nat) : Option partitioning :=
  if i < p.parts_count - 1 then
    some ⟨p.boundaries.set (i + 1) (p.bnd i)⟩
  else none

/-- `add_part_end(i)`: `PRECONDITION(i < parts_count())`, then
`boundaries_.insert(boundaries_.begin() + i + 1, boundaries_[i + 1])`. -/
def add_part_end (p : partitioning) (i : Nat) : Option partitioning :=
  if i < p.parts_count then
    some ⟨insertAt p.boundaries (i + 1) (p.bnd (i + 1))⟩
  else none

/-- `add_part_begin(i)`: `PRECONDITION(i < parts_count())`, then
`boundaries_.insert(boundaries_.begin() + i, boundaries_[i])`. -/
def add_part_begin (p : partitioning) (i : Nat) : Option partitioning :=
  if i < p.parts_count then
    some ⟨insertAt p.boundaries i (p.bnd i)⟩
  else none

/-- `add_parts_end(i, count)`: `PRECONDITION(i < parts_count())`, then insert
`count` copies of `boundaries_[i + 1]` before index `i + 1`. -/
def add_parts_end (p : partitioning) (i c : Nat) : Option partitioning :=
  if i < p.parts_count then
    some ⟨insertN p.boundaries (i + 1) c (p.bnd (i + 1))⟩
  else none

/-- `add_parts_begin(i, count)`: `PRECONDITION(i < parts_count())`, then insert
`count` copies of `boundaries_[i]` before index `i`. -/
def add_parts_begin (p : partitioning) (i c : Nat) : Option partitioning :=
  if i < p.parts_count then
    some ⟨insertN p.boundaries i c (p.bnd i)⟩
  else none

/-- `remove_part(i)`: the code checks only `PRECONDITION(i < parts_count())`
(the declared precondition `0 < i` from the doc comment is not checked), then
`boundaries_.erase(boundaries_.begin() + i)`. -/
def remove_part (p : partitioning) (i : Nat) : Option partitioning :=
  if i < p.parts_count then
    some ⟨eraseAt p.boundaries i⟩
  else none

/-- `shrink(i)`: preconditions `i + 1 < parts_count()` and
`!is_part_empty(i)`, then `boundaries_[i + 1]--`. -/
def shrink (p : partitioning) (i : Nat) : Option partitioning :=
  if i + 1 < p.parts_count ∧ ¬ p.emptyB i then
    some ⟨p.boundaries.set (i + 1) (p.bnd (i + 1) - 1)⟩
  else none

/-- The step-by-step loop of `shrink_by` for bidirectional iterators: `n`
times `PRECONDITION(!is_part_empty(i)); boundaries_[i + 1]--`. -/
def shrinkLoop (i : Nat) : Nat → partitioning → Option partitioning
  | 0, p => some p
  | n + 1, p =>
    if i < p.parts_count ∧ ¬ p.emptyB i then
      shrinkLoop i n ⟨p.boundaries.set (i + 1) (p.bnd (i + 1) - 1)⟩
    else none

/-- `shrink_by(i, n)`, bidirectional branch: `PRECONDITION(i+1 < parts_count())`
then the step loop. -/
def shrink_by_fwd (p : partitioning) (i n : Nat) : Option partitioning :=
  if i + 1 < p.parts_count then shrinkLoop i n p else none

/-- `shrink_by(i, n)`, random-access branch: `PRECONDITION(i+1 < parts_count())`,
`PRECONDITION(distance(part(i)) >= n)`, then `boundaries_[i + 1] -= n`. -/
def shrink_by_ra (p : partitioning) (i n : Nat) : Option partitioning :=
  if i + 1 < p.parts_count then
    if n ≤ p.bnd (i + 1) - p.bnd i then
      some ⟨p.boundaries.set (i + 1) (p.bnd (i + 1) - n)⟩
    else none
  else none

end partitioning

/-! ## The handle table `algorithm_data`
(src/include/positionless/detail/algorithm_data.hpp)

`parts_mapping_` maps iterator indices (handles) to part indices; the
tombstone value `size_t(-1)` is modelled by `none`. -/

/-- First index whose entry satisfies the predicate (`std::find` over
`parts_mapping_`, returning the index instead of an iterator). -/
def findIdxO {α : Type} (pr : α → Bool) : List α → Option Nat
  | [] => none
  | a :: l => if pr a then some 0 else (findIdxO pr l).map (· + 1)

/-- Swap the entries at indices `i` and `j`
(`std::swap(parts_mapping_[i], parts_mapping_[j])`). -/
def swapIdx {α : Type} [Inhabited α] (l : List α) (i j : Nat) : List α :=
  (l.set i (l.getD j default)).set j (l.getD i default)

/-- `algorithm_data<BaseIterator>`: the partitioning plus the handle table. -/
structure algorithm_data where
  pt : partitioning
  parts_mapping : List (Option Nat)
deriving DecidableEq, Repr

namespace algorithm_data

/-- The constructor `algorithm_data(begin, end)`:
`partitioning_(begin, end)` and `parts_mapping_{0, 1}`. -/
def init (a b : Nat) : algorithm_data := ⟨partitioning.init a b, [some 0, some 1]⟩

/-- The mapping entry of handle `h` (`parts_mapping_[h]`, tombstone as `none`). -/
def mval (d : algorithm_data) (h : Nat) : Option Nat :=
  d.parts_mapping.getD h none

/-- `base(iterator_index)`: preconditions index in range and not tombstoned;
a sentinel entry (`part == parts_count()`) resolves to
`part(parts_count() - 1).second`, otherwise to `part(part).first`. -/
def base (d : algorithm_data) (h : Nat) : Option Nat :=
  if h < d.parts_mapping.length then
    match d.mval h with
    | none => none
    | some part =>
      if part = d.pt.parts_count then
        (d.pt.part (d.pt.parts_count - 1)).map Prod.snd
      else
        (d.pt.part part).map Prod.fst
  else none

/-- `copy_iterator(iterator_index)`: checks index/tombstone, inserts an empty
part before `part` via `add_part_begin`, shifts every non-tombstone mapping
entry `>= part` up by one, then reuses the first tombstoned row (or appends)
for the new handle, returning the new table and the new handle index. -/
def copy_iterator (d : algorithm_data) (h : Nat) :
    Option (algorithm_data × Nat) :=
  if h < d.parts_mapping.length then
    match d.mval h with
    | none => none
    | some part =>
      match d.pt.add_part_begin part with
      | none => none
      | some pt' =>
        let shifted := d.parts_mapping.map
          (Option.map (fun p => if part ≤ p then p + 1 else p))
        match findIdxO (· == none) shifted with
        | some j => some (⟨pt', shifted.set j (some part)⟩, j)
        | none => some (⟨pt', shifted ++ [some part]⟩, shifted.length)
  else none

/-- `create_begin_iterator()`: `copy_iterator(0)`. -/
def create_begin_iterator (d : algorithm_data) : Option (algorithm_data × Nat) :=
  d.copy_iterator 0

/-- `create_end_iterator()`: `copy_iterator(1)`. -/
def create_end_iterator (d : algorithm_data) : Option (algorithm_data × Nat) :=
  d.copy_iterator 1

/-- `destroy_iterator(iterator_index)`: `PRECONDITION(index < size)` then mark
the row a tombstone (no liveness check, no change to the partitioning). -/
def destroy_iterator (d : algorithm_data) (h : Nat) : Option algorithm_data :=
  if h < d.parts_mapping.length then
    some ⟨d.pt, d.parts_mapping.set h none⟩
  else none

/-- Structural helper for `scanNE`: the fuel is an upper bound on the number
of loop iterations (`parts_count - q` suffices, since the loop guard requires
`q < parts_count` and `q` increases). -/
def scanNEgo (pt : partitioning) : Nat → Nat → Nat
  | 0, q => q
  | fuel + 1, q =>
    if q < pt.parts_count ∧ pt.emptyB q then scanNEgo pt fuel (q + 1) else q

/-- The scan `while (q < parts_count() && is_part_empty(q)) q++` of
`increment` (the bound check guards the emptiness test, as in the source). -/
def scanNE (pt : partitioning) (q : Nat) : Nat :=
  scanNEgo pt (pt.parts_count - q) q

/-- The scan `while (r > 0 && is_part_empty(r)) r--` of `decrement`. -/
def scanPrev (pt : partitioning) : Nat → Nat
  | 0 => 0
  | r + 1 => if pt.emptyB (r + 1) then scanPrev pt r else r + 1

/-- `increment(iterator_index)`: index/tombstone checks, the precondition
`part(part).first != base(1)` (whose evaluation itself requires
`part < parts_count()` and a live handle 1), then either `grow(part - 1)`
when the part is non-empty, or the scan for the next non-empty part, the
`std::find` for the handle bound to it, the binding swap, and
`grow(next_non_empty_part - 1)`.  The `- 1` subtractions are `size_t`. -/
def increment (d : algorithm_data) (h : Nat) : Option algorithm_data :=
  if h < d.parts_mapping.length then
    match d.mval h with
    | none => none
    | some part =>
      match d.pt.part part, d.base 1 with
      | some pr, some b1 =>
        if pr.1 ≠ b1 then
          if ¬ d.pt.emptyB part then
            (d.pt.grow (sub1w part)).map (fun pt' => ⟨pt', d.parts_mapping⟩)
          else
            let q := scanNE d.pt (part + 1)
            if q < d.pt.parts_count then
              match findIdxO (· == some q) d.parts_mapping with
              | some j =>
                (d.pt.grow (sub1w q)).map
                  (fun pt' => ⟨pt', swapIdx d.parts_mapping h j⟩)
              | none => none
            else none
        else none
      | _, _ => none
  else none

/-- `decrement(iterator_index)`: index/tombstone checks, `PRECONDITION(part > 0)`,
the precondition `part(part).first != base(0)`, then either `shrink(part - 1)`
when the previous part is non-empty, or the backward scan, the emptiness
assertion on the part found, the `std::find` for the handle bound to
`prev_non_empty_part + 1`, the binding swap, and `shrink(prev_non_empty_part)`. -/
def decrement (d : algorithm_data) (h : Nat) : Option algorithm_data :=
  if h < d.parts_mapping.length then
    match d.mval h with
    | none => none
    | some part =>
      if 0 < part then
        match d.pt.part part, d.base 0 with
        | some pr, some b0 =>
          if pr.1 ≠ b0 then
            if 0 < part ∧ ¬ d.pt.emptyB (part - 1) then
              (d.pt.shrink (part - 1)).map (fun pt' => ⟨pt', d.parts_mapping⟩)
            else
              let r := scanPrev d.pt (part - 1)
              if r < d.pt.parts_count then
                if ¬ d.pt.emptyB r then
                  match findIdxO (· == some (r + 1)) d.parts_mapping with
                  | some j =>
                    (d.pt.shrink r).map
                      (fun pt' => ⟨pt', swapIdx d.parts_mapping h j⟩)
                  | none => none
                else none
              else none
          else none
        | _, _ => none
      else none
  else none

end algorithm_data

/-! ## The cursor layer (src/include/positionless/translation.hpp)

A `partitioning_iterator` holds `data_` (a shared pointer to one
`algorithm_data`, null after being moved from) and `iterator_index_`.  All
cursors of one factory call share one table, so a cursor is modelled as
`Option Nat`: `some h` when `data_` points to the shared table and the cursor
owns handle `h`, `none` when `data_` is null (moved-from). -/

/-- A cursor over the (single, shared) table: `none` models a null `data_`. -/
abbrev Cursor : Type := Option Nat

/-- The destructor `~partitioning_iterator()`: if `data_` is non-null, call
`destroy_iterator(iterator_index_)`; otherwise do nothing. -/
def cursor_dtor (w : algorithm_data) (c : Cursor) : Option algorithm_data :=
  match c with
  | none => some w
  | some h => w.destroy_iterator h

/-- Copy construction: `data_(other.data_)`,
`iterator_index_(data_->copy_iterator(other.iterator_index_))`.
Requires the source's `data_` non-null (a null source dereferences null). -/
def cursor_copy_ctor (w : algorithm_data) (src : Cursor) :
    Option (algorithm_data × Cursor) :=
  match src with
  | none => none
  | some h => (w.copy_iterator h).map (fun r => (r.1, some r.2))

/-- Copy assignment (non-self): if the destination's `data_` is non-null,
`destroy_iterator` its handle; then take the source's table and
`copy_iterator` its handle. -/
def cursor_copy_assign (w : algorithm_data) (dst src : Cursor) :
    Option (algorithm_data × Cursor) :=
  match dst with
  | none => cursor_copy_ctor w src
  | some h =>
    match w.destroy_iterator h with
    | none => none
    | some w1 => cursor_copy_ctor w1 src

/-- Move assignment is `= default`: member-wise move of `data_` (which nulls
the source's shared pointer) and `iterator_index_`; the table itself is not
touched.  Returns (table, new destination, new source). -/
def cursor_move_assign (w : algorithm_data) (_dst src : Cursor) :
    algorithm_data × Cursor × Cursor :=
  (w, src, none)

/-- `make_partitioning_iterators(begin, end)`: construct the shared
`algorithm_data`, then `create_begin_iterator()` and `create_end_iterator()`. -/
def make_partitioning_iterators (a b : Nat) :
    Option (algorithm_data × Cursor × Cursor) :=
  let d := algorithm_data.init a b
  match d.create_begin_iterator with
  | none => none
  | some (d1, hb) =>
    match d1.create_end_iterator with
    | none => none
    | some (d2, he) => some (d2, some hb, some he)

/-! ## Specification-level definitions used to state the claims -/

/-- Monotonicity of the boundary vector (each boundary is at or after the
previous one); this is how "the boundaries delimit contiguous parts of the
range" manifests on positions. -/
def partitioning.monoB (p : partitioning) : Prop :=
  ∀ k, k + 1 < p.boundaries.length → p.bnd k ≤ p.bnd (k + 1)

/-- The structural invariant of a partitioning over the range [a, b): at
least one part, first boundary `a`, last boundary `b`, monotone boundaries. -/
def PInv (a b : Nat) (p : partitioning) : Prop :=
  2 ≤ p.boundaries.length ∧ p.bnd 0 = a ∧
  p.bnd (p.boundaries.length - 1) = b ∧ p.monoB

/-- The declared mutating operations of `partitioning` (grow_by/shrink_by
appear twice, once per `if constexpr` branch of the source). -/
inductive POp where
  | growO : Nat → POp
  | growByFwd : Nat → Nat → POp
  | growByRa : Nat → Nat → POp
  | transferPrev : Nat → POp
  | transferNext : Nat → POp
  | addEnd : Nat → POp
  | addBegin : Nat → POp
  | addsEnd : Nat → Nat → POp
  | addsBegin : Nat → Nat → POp
  | removeO : Nat → POp
  | shrinkO : Nat → POp
  | shrinkByFwd : Nat → Nat → POp
  | shrinkByRa : Nat → Nat → POp

/-- Running one declared operation (the code, with its checked preconditions). -/
def papply : POp → partitioning → Option partitioning
  | .growO i, p => p.grow i
  | .growByFwd i n, p => p.grow_by_fwd i n
  | .growByRa i n, p => p.grow_by_ra i n
  | .transferPrev i, p => p.transfer_to_prev i
  | .transferNext i, p => p.transfer_to_next i
  | .addEnd i, p => p.add_part_end i
  | .addBegin i, p => p.add_part_begin i
  | .addsEnd i n, p => p.add_parts_end i n
  | .addsBegin i n, p => p.add_parts_begin i n
  | .removeO i, p => p.remove_part i
  | .shrinkO i, p => p.shrink i
  | .shrinkByFwd i n, p => p.shrink_by_fwd i n
  | .shrinkByRa i n, p => p.shrink_by_ra i n

/-- The DOCUMENTED precondition of each operation (the doc comments of
partitioning.hpp), read as exact arithmetic.  For `grow` the extra
`i + 1 < W` conjunct records that the `size_t` argument of a real call is
below `SIZE_MAX` (so `i + 1` does not wrap).  Note `remove_part` documents
`0 < i < parts_count()` even though its body checks only the upper half. -/
def docPre : POp → partitioning → Prop
  | .growO i, p => i + 1 < p.parts_count ∧ ¬ p.emptyB (i + 1) ∧ i + 1 < W
  | .growByFwd i n, p => i + 1 < p.parts_count ∧ n ≤ p.bnd (i + 2) - p.bnd (i + 1)
  | .growByRa i n, p => i + 1 < p.parts_count ∧ n ≤ p.bnd (i + 2) - p.bnd (i + 1)
  | .transferPrev i, p => 0 < i ∧ i < p.parts_count
  | .transferNext i, p => i < p.parts_count - 1
  | .addEnd i, p => i < p.parts_count
  | .addBegin i, p => i < p.parts_count
  | .addsEnd i _, p => i < p.parts_count
  | .addsBegin i _, p => i < p.parts_count
  | .removeO i, p => 0 < i ∧ i < p.parts_count
  | .shrinkO i, p => i + 1 < p.parts_count ∧ ¬ p.emptyB i
  | .shrinkByFwd i n, p => i + 1 < p.parts_count ∧ n ≤ p.bnd (i + 1) - p.bnd i
  | .shrinkByRa i n, p => i + 1 < p.parts_count ∧ n ≤ p.bnd (i + 1) - p.bnd i

/-- Partitioning states reachable from construction over [a, b) through the
declared operations, each called with its documented precondition satisfied
(and completing without a contract violation). -/
inductive PReach (a b : Nat) : partitioning → Prop where
  | init : PReach a b (partitioning.init a b)
  | step {p p' : partitioning} (op : POp) :
      PReach a b p → docPre op p → papply op p = some p' → PReach a b p'

/-- `n`-fold iteration of a fallible operation (calling the singular form
`n` times, aborting as soon as one call aborts). -/
def iterOp (f : partitioning → Option partitioning) :
    Nat → partitioning → Option partitioning
  | 0, p => some p
  | n + 1, p =>
    match f p with
    | none => none
    | some q => iterOp f n q

/-- A cursor tagged with the identity of its shared table (`data_` compared
by pointer in the source; distinct factory calls give distinct identities). -/
structure TCursor where
  tid : Nat
  idx : Nat

/-- `operator==`: `data_ == other.data_ && data_->base(iterator_index_) ==
data_->base(other.iterator_index_)` — table identity first (short-circuit:
`base` is not evaluated for cursors of different tables), then positional
comparison through this cursor's table. -/
def cursor_beq (env : Nat → algorithm_data) (c1 c2 : TCursor) : Option Bool :=
  if c1.tid = c2.tid then
    match (env c1.tid).base c1.idx, (env c1.tid).base c2.idx with
    | some x, some y => some (x == y)
    | _, _ => none
  else some false

/-- `operator!=`: `!(*this == other)`. -/
def cursor_bne (env : Nat → algorithm_data) (c1 c2 : TCursor) : Option Bool :=
  (cursor_beq env c1 c2).map (fun x => !x)

/-- Handle `h` is a live (non-tombstoned) row of the table. -/
def algorithm_data.live (d : algorithm_data) (h : Nat) : Prop :=
  h < d.parts_mapping.length ∧ d.mval h ≠ none

/-- The handle-table invariant over a range ending at `b`: at least two
boundaries and two rows, a parts count representable in `size_t`, last
boundary `b`, handle 1 bound to the sentinel value `parts_count()`, and
injectivity of the live bindings (at most one live handle per table value). -/
def Inv (b : Nat) (d : algorithm_data) : Prop :=
  2 ≤ d.pt.boundaries.length ∧
  2 ≤ d.parts_mapping.length ∧
  d.pt.parts_count < W ∧
  d.pt.bnd (d.pt.boundaries.length - 1) = b ∧
  d.mval 1 = some d.pt.parts_count ∧
  (∀ h1, h1 < d.parts_mapping.length → ∀ h2, h2 < d.parts_mapping.length →
    h1 ≠ h2 → d.mval h1 = none ∨ d.mval h1 ≠ d.mval h2)

/-- A single cursor advance: pre-increment or pre-decrement of the cursor
owning the given handle. -/
inductive Move where
  | inc : Move
  | dec : Move
deriving DecidableEq, Repr

/-- Apply one advance to the shared table. -/
def apply_move (d : algorithm_data) : Move × Nat → Option algorithm_data
  | (.inc, h) => d.increment h
  | (.dec, h) => d.decrement h

/-- Run a sequence of advances, aborting as soon as one aborts. -/
def run_moves (d : algorithm_data) : List (Move × Nat) → Option algorithm_data
  | [] => some d
  | mv :: rest =>
    match apply_move d mv with
    | none => none
    | some d' => run_moves d' rest

/-- One handle-table mutation as driven by the cursor layer: copying any live
handle (the factory copies handles 0 and 1, cursor copies copy their own),
and advancing or destroying a cursor-owned handle (cursors never own the
bootstrap handles 0 and 1).  The `parts_count < W` side condition on copy
records that a real `std::vector` never reaches 2^64 elements. -/
inductive CStep : algorithm_data → algorithm_data → Prop where
  | copy {d d' : algorithm_data} (h r : Nat) :
      d.copy_iterator h = some (d', r) → d'.pt.parts_count < W → CStep d d'
  | incr {d d' : algorithm_data} (h : Nat) :
      h ≠ 0 → h ≠ 1 → d.increment h = some d' → CStep d d'
  | decr {d d' : algorithm_data} (h : Nat) :
      h ≠ 0 → h ≠ 1 → d.decrement h = some d' → CStep d d'
  | destroy {d d' : algorithm_data} (h : Nat) :
      h ≠ 0 → h ≠ 1 → d.destroy_iterator h = some d' → CStep d d'

/-- Handle-table states reachable from construction over [a, b) through
cursor-driven operations. -/
inductive CReach (a b : Nat) : algorithm_data → Prop where
  | init : CReach a b (algorithm_data.init a b)
  | step {d d' : algorithm_data} : CReach a b d → CStep d d' → CReach a b d'

/-! # Theorems

Auxiliary lemmas first (size_t subtraction and list indexing), then one
section per claim of the specification. -/

theorem sub1w_zero : sub1w 0 = W - 1 := by
  simp [sub1w, W]

theorem sub1w_succ (a : Nat) (h : a + 1 < W) : sub1w (a + 1) = a := by
  unfold sub1w
  have hW : 0 < W := by norm_num [W]
  have : a + 1 + (W - 1) = a + W := by omega
  rw [this, Nat.add_mod_right]
  exact Nat.mod_eq_of_lt (by omega)

theorem insertAt_eq_insertN (l : List Nat) (i x : Nat) :
    insertAt l i x = insertN l i 1 x := by
  simp [insertAt, insertN, List.replicate]

theorem length_insertAt (l : List Nat) (i x : Nat) (h : i ≤ l.length) :
    (insertAt l i x).length = l.length + 1 := by
  simp [insertAt]
  omega

theorem length_insertN (l : List Nat) (i c x : Nat) (h : i ≤ l.length) :
    (insertN l i c x).length = l.length + c := by
  simp [insertN]
  omega

theorem length_eraseAt (l : List Nat) (i : Nat) (h : i < l.length) :
    (eraseAt l i).length = l.length - 1 := by
  simp [eraseAt]
  omega

theorem getD_append_lt {α : Type} (l1 l2 : List α) (k : Nat) (d : α)
    (h : k < l1.length) : (l1 ++ l2).getD k d = l1.getD k d := by
  induction l1 generalizing k with
  | nil => simp at h
  | cons a t ih =>
    cases k with
    | zero => simp [List.getD]
    | succ k =>
      simp only [List.cons_append, List.getD_cons_succ]
      exact ih k (by simpa using h)

theorem getD_append_ge {α : Type} (l1 l2 : List α) (k : Nat) (d : α)
    (h : l1.length ≤ k) : (l1 ++ l2).getD k d = l2.getD (k - l1.length) d := by
  induction l1 generalizing k with
  | nil => simp
  | cons a t ih =>
    cases k with
    | zero => simp at h
    | succ k =>
      simp only [List.cons_append, List.getD_cons_succ, List.length_cons]
      rw [ih k (by simpa using h)]
      congr 1
      omega

theorem getD_set {α : Type} (l : List α) (j k : Nat) (v d : α) :
    (l.set j v).getD k d = if j = k ∧ j < l.length then v else l.getD k d := by
  induction l generalizing j k with
  | nil => simp
  | cons a t ih =>
    cases j with
    | zero =>
      cases k with
      | zero => simp
      | succ k => simp
    | succ j =>
      cases k with
      | zero => simp
      | succ k =>
        simp only [List.set_cons_succ, List.getD_cons_succ, List.length_cons]
        rw [ih]
        by_cases h : j = k ∧ j < t.length
        · rw [if_pos h, if_pos ⟨by omega, by omega⟩]
        · rw [if_neg h, if_neg (by omega)]

theorem length_set {α : Type} (l : List α) (j : Nat) (v : α) :
    (l.set j v).length = l.length :=
  List.length_set l j v

theorem getD_take_eq {α : Type} (l : List α) (i k : Nat) (d : α) (hk : k < i) :
    (l.take i).getD k d = l.getD k d := by
  induction l generalizing i k with
  | nil => simp
  | cons a t ih =>
    cases i with
    | zero => omega
    | succ i =>
      cases k with
      | zero => simp
      | succ k =>
        simp only [List.take_succ_cons, List.getD_cons_succ]
        exact ih i k (by omega)

theorem getD_drop_eq {α : Type} (l : List α) (i m : Nat) (d : α) :
    (l.drop i).getD m d = l.getD (i + m) d := by
  induction l generalizing i with
  | nil => simp
  | cons a t ih =>
    cases i with
    | zero => simp
    | succ i =>
      simp only [List.drop_succ_cons]
      rw [ih]
      simp [Nat.succ_add]

theorem getD_insertAt_lt (l : List Nat) (i x k : Nat) (hi : i ≤ l.length)
    (hk : k < i) : (insertAt l i x).getD k 0 = l.getD k 0 := by
  unfold insertAt
  have hlen : (l.take i).length = i := by simp; omega
  rw [getD_append_lt _ _ _ _ (by omega), getD_take_eq l i k 0 hk]

theorem getD_insertAt_self (l : List Nat) (i x : Nat) (h : i ≤ l.length) :
    (insertAt l i x).getD i 0 = x := by
  unfold insertAt
  have hlen : (l.take i).length = i := by simp; omega
  rw [getD_append_ge _ _ _ _ (by omega), hlen]
  simp

theorem getD_insertAt_gt (l : List Nat) (i x k : Nat) (hi : i ≤ l.length)
    (hk : i < k) : (insertAt l i x).getD k 0 = l.getD (k - 1) 0 := by
  unfold insertAt
  have hlen : (l.take i).length = i := by simp; omega
  rw [getD_append_ge _ _ _ _ (by omega), hlen]
  have : k - i = (k - 1 - i) + 1 := by omega
  rw [this]
  simp only [List.getD_cons_succ]
  rw [getD_drop_eq l i (k - 1 - i) 0]
  congr 1
  omega

theorem getD_replicate {α : Type} (n m : Nat) (x d : α) :
    (List.replicate n x).getD m d = if m < n then x else d := by
  induction n generalizing m with
  | zero => simp
  | succ n ih =>
    cases m with
    | zero => simp [List.replicate]
    | succ m =>
      simp only [List.replicate, List.getD_cons_succ]
      rw [ih]
      by_cases h : m < n
      · rw [if_pos h, if_pos (by omega)]
      · rw [if_neg h, if_neg (by omega)]

theorem getD_insertN_lt (l : List Nat) (i c x k : Nat) (hi : i ≤ l.length)
    (hk : k < i) : (insertN l i c x).getD k 0 = l.getD k 0 := by
  unfold insertN
  have hlen : (l.take i).length = i := by simp; omega
  rw [List.append_assoc, getD_append_lt _ _ _ _ (by omega),
     getD_take_eq l i k 0 hk]

theorem getD_insertN_mid (l : List Nat) (i c x k : Nat) (hi : i ≤ l.length)
    (hk1 : i ≤ k) (hk2 : k < i + c) : (insertN l i c x).getD k 0 = x := by
  unfold insertN
  have hlen : (l.take i).length = i := by simp; omega
  rw [List.append_assoc, getD_append_ge _ _ _ _ (by omega), hlen,
     getD_append_lt _ _ _ _ (by simp; omega), getD_replicate]
  rw [if_pos (by omega)]

theorem getD_insertN_ge (l : List Nat) (i c x k : Nat) (hi : i ≤ l.length)
    (hk : i + c ≤ k) : (insertN l i c x).getD k 0 = l.getD (k - c) 0 := by
  unfold insertN
  have hlen : (l.take i).length = i := by simp; omega
  rw [List.append_assoc, getD_append_ge _ _ _ _ (by omega), hlen,
     getD_append_ge _ _ _ _ (by simp; omega), getD_drop_eq]
  congr 1
  simp
  omega

theorem length_insertN' (l : List Nat) (i c x : Nat) :
    i ≤ l.length → (insertN l i c x).length = l.length + c :=
  fun h => length_insertN l i c x h

theorem getD_eraseAt_lt (l : List Nat) (i k : Nat) (hk : k < i) :
    (eraseAt l i).getD k 0 = l.getD k 0 := by
  unfold eraseAt
  by_cases hi : i ≤ l.length
  · have hlen : (l.take i).length = i := by simp; omega
    rw [getD_append_lt _ _ _ _ (by omega), getD_take_eq l i k 0 hk]
  · have : l.take i = l := List.take_of_length_le (by omega)
    rw [this]
    have : l.drop (i + 1) = [] := List.drop_eq_nil_of_le (by omega)
    rw [this, List.append_nil]

theorem getD_eraseAt_ge (l : List Nat) (i k : Nat) (hi : i < l.length)
    (hk : i ≤ k) : (eraseAt l i).getD k 0 = l.getD (k + 1) 0 := by
  unfold eraseAt
  have hlen : (l.take i).length = i := by simp; omega
  rw [getD_append_ge _ _ _ _ (by omega), hlen, getD_drop_eq]
  congr 1
  omega

theorem set_getD_self (l : List Nat) (j : Nat) :
    l.set j (l.getD j 0) = l := by
  induction l generalizing j with
  | nil => simp
  | cons a t ih =>
    cases j with
    | zero => simp
    | succ j => simpa using ih j

/-! ## Claim C1: the factory aborts

For any range, `make_partitioning_iterators` first creates the begin cursor
(`copy_iterator(0)`, which succeeds and leaves handle 1 bound to the sentinel
value `parts_count() = 2`), then the end cursor via `copy_iterator(1)`, which
calls `partitioning::add_part_begin(2)` and fires its
`PRECONDITION(i < parts_count())`. -/

/-- C1: for the three-element sequence [1,2,3] (positions 0..3), the factory
`make_partitioning_iterators` does NOT complete: it hits a contract violation
while creating the end cursor, so no begin/end cursor pair is ever returned
(contradicting the claimed 1,2,3 traversal, which requires the factory to
succeed).  `none` models the `PRECONDITION` abort. -/
theorem make_partitioning_iterators_violates_contract :
    make_partitioning_iterators 0 3 = none := by decide

/-! ## Claim C2: copying a sentinel-bound handle aborts -/

/-- C2: in the initial table over [1,2,3] (a reachable state; positions 0..3),
handle 1 is live and bound to the sentinel value `parts_count()`, yet
`copy_iterator(1)` violates the precondition of the Partition operation it
invokes (`add_part_begin(parts_count())` requires `i < parts_count()`) and
aborts instead of returning a new handle bound to the same base position. -/
theorem copy_iterator_sentinel_violates_partition_precondition :
    (algorithm_data.init 0 3).mval 1 = some (algorithm_data.init 0 3).pt.parts_count ∧
    (algorithm_data.init 0 3).copy_iterator 1 = none := by decide

/-! ## Claim C4: `remove_part(0)` silently proceeds

`partitioning::remove_part` documents the precondition `0 < i < parts_count()`
but the body checks only `PRECONDITION(i < parts_count())`, so `i = 0` is not
rejected: the call erases `boundaries_[0]` (the range-start boundary). -/

/-- C4: on the one-part partitioning over [0,3), `remove_part(0)` does not
fail fast: it silently succeeds (no contract violation is raised) and erases
the first boundary, leaving `boundaries_ = {3}` — a state with
`parts_count() = 0` that even breaks the `parts_count() >= 1` invariant. -/
theorem remove_part_zero_no_failfast :
    (partitioning.init 0 3).remove_part 0 = some ⟨[3]⟩ ∧
    (∀ q : partitioning, (partitioning.init 0 3).remove_part 0 = some q →
      q.parts_count = 0) := by decide

/-! ## Claim C5: move assignment does not tombstone the old handle

`partitioning_iterator`'s move constructor and move assignment are
`= default`; a defaulted move assignment moves `data_` (nulling the source's
shared pointer) and copies `iterator_index_`, and never calls
`destroy_iterator` on the handle the destination previously owned. -/

/-- C5 counterexample: in the reachable state below (obtained from the table
over [0,2) by `copy_iterator(0)` then `copy_iterator(2)`), move-assigning the
cursor owning handle 3 onto the cursor owning handle 2 leaves the shared
table completely untouched: handle 2 — the destination's previously owned
handle — is NOT tombstoned, contradicting the claim that overwriting a
Cursor by move assignment tombstones its previous handle. -/
theorem move_assign_does_not_tombstone_cex :
    (cursor_move_assign ⟨⟨[0, 0, 0, 2]⟩, [some 2, some 3, some 1, some 0]⟩
        (some 2) (some 3)).1 =
      ⟨⟨[0, 0, 0, 2]⟩, [some 2, some 3, some 1, some 0]⟩ ∧
    (cursor_move_assign ⟨⟨[0, 0, 0, 2]⟩, [some 2, some 3, some 1, some 0]⟩
        (some 2) (some 3)).1.mval 2 ≠ none := by decide

/-- C5 amended: copy assignment tombstones the destination's previous handle
before acquiring the new one, but move assignment transfers the table
reference and handle id WITHOUT tombstoning the destination's previous
handle — that handle stays live in the table even after both resulting
cursors are destroyed (it is leaked) — while the moved-from Cursor afterwards
owns no handle and its destructor performs no table mutation. -/
theorem move_assign_transfers_without_tombstone
    (w : algorithm_data) (a b : Nat)
    (hb : b < w.parts_mapping.length) (hab : a ≠ b)
    (hlive : w.mval a ≠ none) :
    cursor_move_assign w (some a) (some b) = (w, some b, none) ∧
    cursor_dtor w (none : Cursor) = some w ∧
    (∃ w2, cursor_dtor w (some b) = some w2 ∧
      w2.mval b = none ∧ w2.mval a = w.mval a ∧ w2.mval a ≠ none) ∧
    (∀ w1, w.destroy_iterator a = some w1 →
      cursor_copy_assign w (some a) (some b) =
        cursor_copy_ctor w1 (some b)) := by
  have hmba : (algorithm_data.mk w.pt (w.parts_mapping.set b none)).mval a =
      w.mval a := by
    show (w.parts_mapping.set b none).getD a none = w.parts_mapping.getD a none
    rw [getD_set]
    simp [Ne.symm hab]
  refine ⟨rfl, rfl, ⟨⟨w.pt, w.parts_mapping.set b none⟩, ?_, ?_, hmba, ?_⟩, ?_⟩
  · simp [cursor_dtor, algorithm_data.destroy_iterator, hb]
  · show (w.parts_mapping.set b none).getD b none = none
    rw [getD_set]
    simp [hb]
  · rw [hmba]
    exact hlive
  · intro w1 h1
    simp [cursor_copy_assign, h1]

/-- Witness for the amended C5 theorem at a concrete reachable state. -/
theorem move_assign_transfers_without_tombstone_witness :
    (cursor_move_assign ⟨⟨[0, 0, 0, 2]⟩, [some 2, some 3, some 1, some 0]⟩
        (some 2) (some 3) = (⟨⟨[0, 0, 0, 2]⟩, [some 2, some 3, some 1, some 0]⟩,
          some 3, none)) ∧
    (∃ w2, cursor_dtor ⟨⟨[0, 0, 0, 2]⟩, [some 2, some 3, some 1, some 0]⟩
        (some 3) = some w2 ∧ w2.mval 3 = none ∧
        w2.mval 2 = (algorithm_data.mk ⟨[0, 0, 0, 2]⟩
          [some 2, some 3, some 1, some 0]).mval 2 ∧ w2.mval 2 ≠ none) := by
  have h := move_assign_transfers_without_tombstone
    ⟨⟨[0, 0, 0, 2]⟩, [some 2, some 3, some 1, some 0]⟩ 2 3
    (by decide) (by decide) (by decide)
  exact ⟨h.1, h.2.2.1⟩

/-! ## Claim C6: the swap-partner search of `increment` can fail

Through cursor-level operations only (documented preconditions satisfied at
every call), a non-empty part can be left with no live handle bound to it:
destroy a cursor whose part later receives elements through `grow`.  A cursor
parked before such an orphaned part then hits
`PRECONDITION(it != parts_mapping_.end())` in `increment`.

Trace over the range [0,2): create the begin cursor (`copy_iterator(0)`,
handle 2), copy it (`copy_iterator(2)`, handle 3), `increment(2)`,
`destroy_iterator(2)` (the first cursor is destroyed), `increment(3)` —
all succeed — and then the next `increment(3)` aborts in the `std::find`. -/

/-- C6: the state `D5` below is reachable from the table over [0,2) by the
successful cursor operations listed (each conjunct), handle 3 is live in `D5`
with an empty part and a base position (1) different from the end base (2)
— so `increment(3)` satisfies all documented preconditions — and a non-empty
part exists after it (part 2, with no live handle bound to it); yet
`increment(3)` returns `none`: the internal search for a swap partner fails
and the `PRECONDITION` aborts, refuting the claim that a live handle is
always bound to the nearest non-empty part. -/
theorem increment_swap_search_fails_after_destroy :
    (algorithm_data.init 0 2).copy_iterator 0 =
      some (⟨⟨[0, 0, 2]⟩, [some 1, some 2, some 0]⟩, 2) ∧
    (algorithm_data.mk ⟨[0, 0, 2]⟩ [some 1, some 2, some 0]).copy_iterator 2 =
      some (⟨⟨[0, 0, 0, 2]⟩, [some 2, some 3, some 1, some 0]⟩, 3) ∧
    (algorithm_data.mk ⟨[0, 0, 0, 2]⟩
        [some 2, some 3, some 1, some 0]).increment 2 =
      some ⟨⟨[0, 0, 1, 2]⟩, [some 1, some 3, some 2, some 0]⟩ ∧
    (algorithm_data.mk ⟨[0, 0, 1, 2]⟩
        [some 1, some 3, some 2, some 0]).destroy_iterator 2 =
      some ⟨⟨[0, 0, 1, 2]⟩, [some 1, some 3, none, some 0]⟩ ∧
    (algorithm_data.mk ⟨[0, 0, 1, 2]⟩
        [some 1, some 3, none, some 0]).increment 3 =
      some ⟨⟨[0, 1, 1, 2]⟩, [some 0, some 3, none, some 1]⟩ ∧
    (algorithm_data.mk ⟨[0, 1, 1, 2]⟩
        [some 0, some 3, none, some 1]).mval 3 = some 1 ∧
    (algorithm_data.mk ⟨[0, 1, 1, 2]⟩
        [some 0, some 3, none, some 1]).base 3 = some 1 ∧
    (algorithm_data.mk ⟨[0, 1, 1, 2]⟩
        [some 0, some 3, none, some 1]).base 1 = some 2 ∧
    (partitioning.mk [0, 1, 1, 2]).emptyB 1 ∧
    ¬ (partitioning.mk [0, 1, 1, 2]).emptyB 2 ∧
    (∀ h' : Nat, h' < 4 →
      (algorithm_data.mk ⟨[0, 1, 1, 2]⟩
        [some 0, some 3, none, some 1]).mval h' ≠ some 2) ∧
    (algorithm_data.mk ⟨[0, 1, 1, 2]⟩
        [some 0, some 3, none, some 1]).increment 3 = none := by decide

/-! ## Claim C7: invariants of reachable partitionings

Every operation, called under its documented precondition, preserves `PInv`;
the claim's properties follow from `PInv`. -/

theorem bnd_set (p : partitioning) (j v m : Nat) :
    (partitioning.mk (p.boundaries.set j v)).bnd m =
      if j = m ∧ j < p.boundaries.length then v else p.bnd m :=
  getD_set p.boundaries j m v 0

theorem pc_set (p : partitioning) (j v : Nat) :
    (partitioning.mk (p.boundaries.set j v)).parts_count = p.parts_count := by
  unfold partitioning.parts_count
  simp

theorem bnd_mono_le (p : partitioning) (hm : p.monoB) (k m : Nat) (hkm : k ≤ m)
    (hmlt : m < p.boundaries.length) : p.bnd k ≤ p.bnd m := by
  induction m with
  | zero =>
    have : k = 0 := by omega
    simp [this]
  | succ m ih =>
    rcases Nat.eq_or_lt_of_le hkm with he | hlt
    · rw [he]
    · exact le_trans (ih (by omega) (by omega)) (hm m hmlt)

theorem PInv_set (a b : Nat) (p : partitioning) (j v : Nat) (hI : PInv a b p)
    (hj0 : 0 < j) (hjlt : j < p.boundaries.length - 1)
    (hlo : p.bnd (j - 1) ≤ v) (hhi : v ≤ p.bnd (j + 1)) :
    PInv a b ⟨p.boundaries.set j v⟩ := by
  obtain ⟨hl, h0, hlast, hm⟩ := hI
  refine ⟨by simpa using hl, ?_, ?_, ?_⟩
  · rw [bnd_set, if_neg (by omega)]
    exact h0
  · rw [show (partitioning.mk (p.boundaries.set j v)).boundaries.length =
        p.boundaries.length by simp]
    rw [bnd_set, if_neg (by omega)]
    exact hlast
  · intro k hk
    rw [show (partitioning.mk (p.boundaries.set j v)).boundaries.length =
        p.boundaries.length by simp] at hk
    rw [bnd_set, bnd_set]
    by_cases hkj : j = k
    · rw [if_pos ⟨hkj, by omega⟩, if_neg (by omega)]
      subst hkj
      exact hhi
    · rw [if_neg (by simp [hkj])]
      by_cases hkj1 : j = k + 1
      · rw [if_pos ⟨hkj1, by omega⟩]
        have : k = j - 1 := by omega
        rw [this]
        exact hlo
      · rw [if_neg (by simp [hkj1])]
        exact hm k hk

theorem PInv_insertAt (a b : Nat) (p : partitioning) (j : Nat) (hI : PInv a b p)
    (hjle : j ≤ p.boundaries.length - 1) :
    PInv a b ⟨insertAt p.boundaries j (p.bnd j)⟩ := by
  obtain ⟨hl, h0, hlast, hm⟩ := hI
  have hjlen : j ≤ p.boundaries.length := by omega
  have hlen : (insertAt p.boundaries j (p.bnd j)).length =
      p.boundaries.length + 1 := length_insertAt _ _ _ hjlen
  refine ⟨?_, ?_, ?_, ?_⟩
  · show 2 ≤ (insertAt p.boundaries j (p.bnd j)).length
    omega
  · show (insertAt p.boundaries j (p.bnd j)).getD 0 0 = a
    rcases Nat.eq_zero_or_pos j with hj | hj
    · subst hj
      rw [getD_insertAt_self _ _ _ hjlen]
      exact h0
    · rw [getD_insertAt_lt _ _ _ _ hjlen hj]
      exact h0
  · show (insertAt p.boundaries j (p.bnd j)).getD
        ((insertAt p.boundaries j (p.bnd j)).length - 1) 0 = b
    rw [hlen]
    have hidx : p.boundaries.length + 1 - 1 = p.boundaries.length := by omega
    rw [hidx, getD_insertAt_gt _ _ _ _ hjlen (by omega)]
    exact hlast
  · intro k hk
    rw [show (partitioning.mk (insertAt p.boundaries j (p.bnd j))).boundaries.length
        = p.boundaries.length + 1 from hlen] at hk
    show (insertAt p.boundaries j (p.bnd j)).getD k 0 ≤
        (insertAt p.boundaries j (p.bnd j)).getD (k + 1) 0
    rcases Nat.lt_trichotomy (k + 1) j with hc | hc | hc
    · rw [getD_insertAt_lt _ _ _ _ hjlen (by omega),
         getD_insertAt_lt _ _ _ _ hjlen hc]
      exact hm k (by omega)
    · rw [getD_insertAt_lt _ _ _ _ hjlen (by omega), hc,
         getD_insertAt_self _ _ _ hjlen]
      have h2 := hm k (by omega)
      rw [hc] at h2
      exact h2
    · rcases Nat.eq_or_lt_of_le (Nat.succ_le_of_lt hc) with he | hlt2
      · have hkj : k = j := by omega
        subst hkj
        rw [getD_insertAt_self _ _ _ hjlen,
           getD_insertAt_gt _ _ _ _ hjlen (by omega)]
        have hidx : k + 1 - 1 = k := by omega
        rw [hidx]
        exact Nat.le_refl _
      · rw [getD_insertAt_gt _ _ _ _ hjlen (by omega),
           getD_insertAt_gt _ _ _ _ hjlen (by omega)]
        have hidx : k + 1 - 1 = (k - 1) + 1 := by omega
        rw [hidx]
        exact hm (k - 1) (by omega)

theorem PInv_insertN (a b : Nat) (p : partitioning) (j c : Nat) (hI : PInv a b p)
    (hjle : j ≤ p.boundaries.length - 1) :
    PInv a b ⟨insertN p.boundaries j c (p.bnd j)⟩ := by
  rcases Nat.eq_zero_or_pos c with hc | hc
  · subst hc
    have : insertN p.boundaries j 0 (p.bnd j) = p.boundaries := by
      unfold insertN
      simp
    rw [this]
    exact hI
  obtain ⟨hl, h0, hlast, hm⟩ := hI
  have hjlen : j ≤ p.boundaries.length := by omega
  have hlen : (insertN p.boundaries j c (p.bnd j)).length =
      p.boundaries.length + c := length_insertN _ _ _ _ hjlen
  refine ⟨?_, ?_, ?_, ?_⟩
  · show 2 ≤ (insertN p.boundaries j c (p.bnd j)).length
    omega
  · show (insertN p.boundaries j c (p.bnd j)).getD 0 0 = a
    rcases Nat.eq_zero_or_pos j with hj | hj
    · subst hj
      rw [getD_insertN_mid _ _ _ _ _ hjlen (by omega) (by omega)]
      exact h0
    · rw [getD_insertN_lt _ _ _ _ _ hjlen hj]
      exact h0
  · show (insertN p.boundaries j c (p.bnd j)).getD
        ((insertN p.boundaries j c (p.bnd j)).length - 1) 0 = b
    rw [hlen, getD_insertN_ge _ _ _ _ _ hjlen (by omega)]
    have hidx : p.boundaries.length + c - 1 - c = p.boundaries.length - 1 := by
      omega
    rw [hidx]
    exact hlast
  · intro k hk
    rw [show (partitioning.mk (insertN p.boundaries j c (p.bnd j))).boundaries.length
        = p.boundaries.length + c from hlen] at hk
    show (insertN p.boundaries j c (p.bnd j)).getD k 0 ≤
        (insertN p.boundaries j c (p.bnd j)).getD (k + 1) 0
    rcases Nat.lt_trichotomy (k + 1) j with h1 | h1 | h1
    · rw [getD_insertN_lt _ _ _ _ _ hjlen (by omega),
         getD_insertN_lt _ _ _ _ _ hjlen h1]
      exact hm k (by omega)
    · rw [getD_insertN_lt _ _ _ _ _ hjlen (by omega),
         getD_insertN_mid _ _ _ _ _ hjlen (by omega) (by omega)]
      have h2 := hm k (by omega)
      rw [h1] at h2
      exact h2
    · by_cases h2 : k + 1 < j + c
      · rw [getD_insertN_mid _ _ _ _ _ hjlen (by omega) (by omega),
           getD_insertN_mid _ _ _ _ _ hjlen (by omega) h2]
      · by_cases h3 : k + 1 = j + c
        · rw [getD_insertN_mid _ _ _ _ _ hjlen (by omega) (by omega),
             getD_insertN_ge _ _ _ _ _ hjlen (by omega)]
          have hidx : k + 1 - c = j := by omega
          rw [hidx]
          exact Nat.le_refl _
        · rw [getD_insertN_ge _ _ _ _ _ hjlen (by omega),
             getD_insertN_ge _ _ _ _ _ hjlen (by omega)]
          have hidx : k + 1 - c = (k - c) + 1 := by omega
          rw [hidx]
          exact hm (k - c) (by omega)

theorem PInv_eraseAt (a b : Nat) (p : partitioning) (i : Nat) (hI : PInv a b p)
    (h0i : 0 < i) (hlt : i < p.boundaries.length - 1) :
    PInv a b ⟨eraseAt p.boundaries i⟩ := by
  obtain ⟨hl, h0, hlast, hm⟩ := hI
  have hilen : i < p.boundaries.length := by omega
  have hlen : (eraseAt p.boundaries i).length = p.boundaries.length - 1 :=
    length_eraseAt _ _ hilen
  refine ⟨?_, ?_, ?_, ?_⟩
  · show 2 ≤ (eraseAt p.boundaries i).length
    omega
  · show (eraseAt p.boundaries i).getD 0 0 = a
    rw [getD_eraseAt_lt _ _ _ h0i]
    exact h0
  · show (eraseAt p.boundaries i).getD ((eraseAt p.boundaries i).length - 1) 0 = b
    rw [hlen, getD_eraseAt_ge _ _ _ hilen (by omega)]
    have hidx : p.boundaries.length - 1 - 1 + 1 = p.boundaries.length - 1 := by
      omega
    rw [hidx]
    exact hlast
  · intro k hk
    rw [show (partitioning.mk (eraseAt p.boundaries i)).boundaries.length =
        p.boundaries.length - 1 from hlen] at hk
    show (eraseAt p.boundaries i).getD k 0 ≤ (eraseAt p.boundaries i).getD (k + 1) 0
    rcases Nat.lt_trichotomy (k + 1) i with h1 | h1 | h1
    · rw [getD_eraseAt_lt _ _ _ (by omega), getD_eraseAt_lt _ _ _ h1]
      exact hm k (by omega)
    · rw [getD_eraseAt_lt _ _ _ (by omega), getD_eraseAt_ge _ _ _ hilen (by omega)]
      have hk1 : p.bnd k ≤ p.bnd i := by
        have h2 := hm k (by omega)
        rw [h1] at h2
        exact h2
      have hk2 : p.bnd i ≤ p.bnd (i + 1) := hm i (by omega)
      rw [h1]
      exact le_trans hk1 hk2
    · rw [getD_eraseAt_ge _ _ _ hilen (by omega),
         getD_eraseAt_ge _ _ _ hilen (by omega)]
      exact hm (k + 1) (by omega)

theorem PInv_growLoop (a b i : Nat) :
    ∀ (n : Nat) (p p' : partitioning), PInv a b p → i + 1 < p.parts_count →
      partitioning.growLoop i n p = some p' → PInv a b p' := by
  intro n
  induction n with
  | zero =>
    intro p p' hI _ hs
    unfold partitioning.growLoop at hs
    exact (Option.some.injEq _ _ ▸ hs) ▸ hI
  | succ n ih =>
    intro p p' hI hpc hs
    unfold partitioning.growLoop at hs
    split at hs
    case isTrue hcond =>
      have hplen : i + 1 < p.boundaries.length - 1 := by
        unfold partitioning.parts_count at hpc
        omega
      obtain ⟨hl, h0, hlast, hm⟩ := hI
      have hne : p.bnd (i + 1) ≠ p.bnd (i + 2) := hcond.2
      have hle1 : p.bnd i ≤ p.bnd (i + 1) := hm i (by omega)
      have hle2 : p.bnd (i + 1) ≤ p.bnd (i + 2) := hm (i + 1) (by omega)
      have hI1 : PInv a b ⟨p.boundaries.set (i + 1) (p.bnd (i + 1) + 1)⟩ := by
        refine PInv_set a b p (i + 1) _ ⟨hl, h0, hlast, hm⟩ (by omega) hplen ?_ ?_
        · show p.bnd (i + 1 - 1) ≤ p.bnd (i + 1) + 1
          have hidx : i + 1 - 1 = i := by omega
          rw [hidx]
          omega
        · show p.bnd (i + 1) + 1 ≤ p.bnd (i + 2)
          omega
      refine ih _ p' hI1 ?_ hs
      rw [pc_set]
      exact hpc
    case isFalse => exact absurd hs (by simp)

theorem PInv_shrinkLoop (a b i : Nat) :
    ∀ (n : Nat) (p p' : partitioning), PInv a b p → i + 1 < p.parts_count →
      partitioning.shrinkLoop i n p = some p' → PInv a b p' := by
  intro n
  induction n with
  | zero =>
    intro p p' hI _ hs
    unfold partitioning.shrinkLoop at hs
    exact (Option.some.injEq _ _ ▸ hs) ▸ hI
  | succ n ih =>
    intro p p' hI hpc hs
    unfold partitioning.shrinkLoop at hs
    split at hs
    case isTrue hcond =>
      have hplen : i + 1 < p.boundaries.length - 1 := by
        unfold partitioning.parts_count at hpc
        omega
      obtain ⟨hl, h0, hlast, hm⟩ := hI
      have hne : p.bnd i ≠ p.bnd (i + 1) := hcond.2
      have hle1 : p.bnd i ≤ p.bnd (i + 1) := hm i (by omega)
      have hle2 : p.bnd (i + 1) ≤ p.bnd (i + 2) := hm (i + 1) (by omega)
      have hI1 : PInv a b ⟨p.boundaries.set (i + 1) (p.bnd (i + 1) - 1)⟩ := by
        refine PInv_set a b p (i + 1) _ ⟨hl, h0, hlast, hm⟩ (by omega) hplen ?_ ?_
        · show p.bnd (i + 1 - 1) ≤ p.bnd (i + 1) - 1
          have hidx : i + 1 - 1 = i := by omega
          rw [hidx]
          omega
        · show p.bnd (i + 1) - 1 ≤ p.bnd (i + 2)
          omega
      refine ih _ p' hI1 ?_ hs
      rw [pc_set]
      exact hpc
    case isFalse => exact absurd hs (by simp)

theorem PInv_papply (a b : Nat) (op : POp) (p p' : partitioning)
    (hI : PInv a b p) (hd : docPre op p) (hs : papply op p = some p') :
    PInv a b p' := by
  have hIc := hI
  obtain ⟨hl, h0, hlast, hm⟩ := hIc
  have hpc : p.parts_count = p.boundaries.length - 1 := rfl
  cases op with
  | growO i =>
    obtain ⟨hd1, hd2, hd3⟩ := hd
    simp only [papply] at hs
    unfold partitioning.grow at hs
    rw [show (i + 1) % W = i + 1 from Nat.mod_eq_of_lt hd3] at hs
    rw [if_pos ⟨hd1, hd2⟩] at hs
    have hle1 : p.bnd i ≤ p.bnd (i + 1) := hm i (by omega)
    have hle2 : p.bnd (i + 1) ≤ p.bnd (i + 2) := hm (i + 1) (by omega)
    have hne : p.bnd (i + 1) ≠ p.bnd (i + 2) := hd2
    refine (Option.some.injEq _ _ ▸ hs) ▸
      PInv_set a b p (i + 1) _ hI (by omega) (by omega) ?_ ?_
    · show p.bnd (i + 1 - 1) ≤ p.bnd (i + 1) + 1
      have hidx : i + 1 - 1 = i := by omega
      rw [hidx]
      omega
    · show p.bnd (i + 1) + 1 ≤ p.bnd (i + 2)
      omega
  | growByFwd i n =>
    simp only [papply] at hs
    unfold partitioning.grow_by_fwd at hs
    rw [if_pos hd.1] at hs
    exact PInv_growLoop a b i n p p' hI hd.1 hs
  | growByRa i n =>
    simp only [papply] at hs
    unfold partitioning.grow_by_ra at hs
    rw [if_pos hd.1] at hs
    split at hs
    case isFalse => exact absurd hs (by simp)
    case isTrue hle =>
      have hd1 : i + 1 < p.parts_count := hd.1
      have hle1 : p.bnd i ≤ p.bnd (i + 1) := hm i (by omega)
      have hle2 : p.bnd (i + 1) ≤ p.bnd (i + 2) := hm (i + 1) (by omega)
      refine (Option.some.injEq _ _ ▸ hs) ▸
        PInv_set a b p (i + 1) _ hI (by omega) (by omega) ?_ ?_
      · show p.bnd (i + 1 - 1) ≤ p.bnd (i + 1) + n
        have hidx : i + 1 - 1 = i := by omega
        rw [hidx]
        omega
      · show p.bnd (i + 1) + n ≤ p.bnd (i + 2)
        omega
  | transferPrev i =>
    simp only [papply] at hs
    unfold partitioning.transfer_to_prev at hs
    obtain ⟨hd1, hd2⟩ := hd
    rw [if_pos (⟨hd1, hd2⟩ : 0 < i ∧ i < p.parts_count)] at hs
    have hle1 : p.bnd (i - 1) ≤ p.bnd i := by
      have := hm (i - 1) (by omega)
      have hidx : i - 1 + 1 = i := by omega
      rw [hidx] at this
      exact this
    have hle2 : p.bnd i ≤ p.bnd (i + 1) := hm i (by omega)
    refine (Option.some.injEq _ _ ▸ hs) ▸
      PInv_set a b p i _ hI hd1 (by omega) ?_ (Nat.le_refl _)
    omega
  | transferNext i =>
    simp only [papply] at hs
    unfold partitioning.transfer_to_next at hs
    have hd1 : i < p.parts_count - 1 := hd
    rw [if_pos hd1] at hs
    have hd2 : i + 1 < p.parts_count := by
      unfold partitioning.parts_count at hd1 ⊢
      omega
    have hle1 : p.bnd i ≤ p.bnd (i + 1) := hm i (by omega)
    have hle2 : p.bnd (i + 1) ≤ p.bnd (i + 2) := hm (i + 1) (by omega)
    refine (Option.some.injEq _ _ ▸ hs) ▸
      PInv_set a b p (i + 1) _ hI (by omega) (by omega) ?_ ?_
    · show p.bnd (i + 1 - 1) ≤ p.bnd i
      have hidx : i + 1 - 1 = i := by omega
      rw [hidx]
    · show p.bnd i ≤ p.bnd (i + 2)
      omega
  | addEnd i =>
    simp only [papply] at hs
    unfold partitioning.add_part_end at hs
    have hd1 : i < p.parts_count := hd
    rw [if_pos hd1] at hs
    exact (Option.some.injEq _ _ ▸ hs) ▸
      PInv_insertAt a b p (i + 1) hI
        (by unfold partitioning.parts_count at hd1; omega)
  | addBegin i =>
    simp only [papply] at hs
    unfold partitioning.add_part_begin at hs
    have hd1 : i < p.parts_count := hd
    rw [if_pos hd1] at hs
    exact (Option.some.injEq _ _ ▸ hs) ▸
      PInv_insertAt a b p i hI
        (by unfold partitioning.parts_count at hd1; omega)
  | addsEnd i n =>
    simp only [papply] at hs
    unfold partitioning.add_parts_end at hs
    have hd1 : i < p.parts_count := hd
    rw [if_pos hd1] at hs
    exact (Option.some.injEq _ _ ▸ hs) ▸
      PInv_insertN a b p (i + 1) n hI
        (by unfold partitioning.parts_count at hd1; omega)
  | addsBegin i n =>
    simp only [papply] at hs
    unfold partitioning.add_parts_begin at hs
    have hd1 : i < p.parts_count := hd
    rw [if_pos hd1] at hs
    exact (Option.some.injEq _ _ ▸ hs) ▸
      PInv_insertN a b p i n hI
        (by unfold partitioning.parts_count at hd1; omega)
  | removeO i =>
    simp only [papply] at hs
    unfold partitioning.remove_part at hs
    obtain ⟨hd1, hd2⟩ := hd
    rw [if_pos hd2] at hs
    exact (Option.some.injEq _ _ ▸ hs) ▸
      PInv_eraseAt a b p i hI hd1
        (by unfold partitioning.parts_count at hd2; omega)
  | shrinkO i =>
    obtain ⟨hd1, hd2⟩ := hd
    simp only [papply] at hs
    unfold partitioning.shrink at hs
    rw [if_pos ⟨hd1, hd2⟩] at hs
    have hle1 : p.bnd i ≤ p.bnd (i + 1) := hm i (by omega)
    have hle2 : p.bnd (i + 1) ≤ p.bnd (i + 2) := hm (i + 1) (by omega)
    have hne : p.bnd i ≠ p.bnd (i + 1) := hd2
    refine (Option.some.injEq _ _ ▸ hs) ▸
      PInv_set a b p (i + 1) _ hI (by omega) (by omega) ?_ ?_
    · show p.bnd (i + 1 - 1) ≤ p.bnd (i + 1) - 1
      have hidx : i + 1 - 1 = i := by omega
      rw [hidx]
      omega
    · show p.bnd (i + 1) - 1 ≤ p.bnd (i + 2)
      omega
  | shrinkByFwd i n =>
    simp only [papply] at hs
    unfold partitioning.shrink_by_fwd at hs
    rw [if_pos hd.1] at hs
    exact PInv_shrinkLoop a b i n p p' hI hd.1 hs
  | shrinkByRa i n =>
    simp only [papply] at hs
    unfold partitioning.shrink_by_ra at hs
    rw [if_pos hd.1] at hs
    split at hs
    case isFalse => exact absurd hs (by simp)
    case isTrue hle =>
      obtain ⟨hd1, hd2⟩ := hd
      have hle1 : p.bnd i ≤ p.bnd (i + 1) := hm i (by omega)
      have hle2 : p.bnd (i + 1) ≤ p.bnd (i + 2) := hm (i + 1) (by omega)
      refine (Option.some.injEq _ _ ▸ hs) ▸
        PInv_set a b p (i + 1) _ hI (by omega) (by omega) ?_ ?_
      · show p.bnd (i + 1 - 1) ≤ p.bnd (i + 1) - n
        have hidx : i + 1 - 1 = i := by omega
        rw [hidx]
        omega
      · show p.bnd (i + 1) - n ≤ p.bnd (i + 2)
        omega

theorem PReach_PInv (a b : Nat) (p : partitioning) (hab : a ≤ b)
    (hr : PReach a b p) : PInv a b p := by
  induction hr with
  | init =>
    refine ⟨by simp [partitioning.init], rfl, rfl, ?_⟩
    intro k hk
    have hk0 : k = 0 := by
      simp [partitioning.init] at hk
      omega
    subst hk0
    exact hab
  | step op _ hd hs ih => exact PInv_papply a b op _ _ ih hd hs

theorem sum_telescope (p : partitioning) (hm : p.monoB) :
    ∀ n, n < p.boundaries.length →
      ((List.range n).map (fun i => p.bnd (i + 1) - p.bnd i)).sum =
        p.bnd n - p.bnd 0 := by
  intro n
  induction n with
  | zero => simp
  | succ n ih =>
    intro hn
    rw [List.range_succ, List.map_append, List.sum_append, ih (by omega)]
    have h1 : p.bnd 0 ≤ p.bnd n := bnd_mono_le p hm 0 n (by omega) (by omega)
    have h2 : p.bnd n ≤ p.bnd (n + 1) := hm n hn
    simp
    omega

theorem filterMap_eq_map_of {α β : Type} (l : List α) (f : α → Option β)
    (g : α → β) (h : ∀ x ∈ l, f x = some (g x)) : l.filterMap f = l.map g := by
  induction l with
  | nil => simp
  | cons x t ih =>
    rw [List.filterMap_cons, h x (List.mem_cons_self x t), List.map_cons,
       ih (fun y hy => h y (List.mem_cons_of_mem x hy))]

/-- C7: in every state reachable, from construction over a range `[a, b)`,
through the declared partitioning operations called under their documented
preconditions, the following hold: at least one part; the first boundary is
the range start; the last boundary is the range end; adjacent parts share
their boundary (gap-free contiguity); and the part sizes sum to the size of
the range. -/
theorem partitioning_reachable_invariants (a b : Nat) (p : partitioning)
    (hab : a ≤ b) (hr : PReach a b p) :
    1 ≤ p.parts_count ∧
    p.bnd 0 = a ∧
    p.bnd (p.boundaries.length - 1) = b ∧
    (∀ i pr pr', p.part i = some pr → p.part (i + 1) = some pr' →
      pr.2 = pr'.1) ∧
    ((List.range p.parts_count).filterMap p.part_size).sum = b - a := by
  obtain ⟨hl, h0, hlast, hm⟩ := PReach_PInv a b p hab hr
  refine ⟨by unfold partitioning.parts_count; omega, h0, hlast, ?_, ?_⟩
  · intro i pr pr' h1 h2
    unfold partitioning.part at h1 h2
    split at h1
    case isFalse => exact absurd h1 (by simp)
    case isTrue =>
      split at h2
      case isFalse => exact absurd h2 (by simp)
      case isTrue =>
        have e1 := Option.some.injEq _ _ ▸ h1
        have e2 := Option.some.injEq _ _ ▸ h2
        rw [← e1, ← e2]
  · have hall : ∀ x ∈ List.range p.parts_count,
        p.part_size x = some ((fun i => p.bnd (i + 1) - p.bnd i) x) := by
      intro x hx
      have : x < p.parts_count := List.mem_range.mp hx
      unfold partitioning.part_size
      rw [if_pos this]
    rw [filterMap_eq_map_of _ _ _ hall,
       sum_telescope p hm p.parts_count
         (by unfold partitioning.parts_count; omega)]
    have hpc : p.parts_count = p.boundaries.length - 1 := rfl
    rw [hpc, hlast, h0]

/-- Witness: the invariants instantiated at the freshly built partitioning
over [0, 3) (reachable by zero steps). -/
theorem partitioning_reachable_invariants_witness :
    1 ≤ (partitioning.init 0 3).parts_count ∧
    (partitioning.init 0 3).bnd 0 = 0 ∧
    (partitioning.init 0 3).bnd
      ((partitioning.init 0 3).boundaries.length - 1) = 3 ∧
    ((List.range (partitioning.init 0 3).parts_count).filterMap
      (partitioning.init 0 3).part_size).sum = 3 - 0 := by
  have h := partitioning_reachable_invariants 0 3 (partitioning.init 0 3)
    (by omega) PReach.init
  exact ⟨h.1, h.2.1, h.2.2.1, h.2.2.2.2⟩

/-! ## Claim C8: batched operations equal repeated singular operations -/

theorem insertN_zero (l : List Nat) (j x : Nat) : insertN l j 0 x = l := by
  unfold insertN
  simp

theorem take_append_of_length (l1 l2 : List Nat) (j : Nat) (h : l1.length = j) :
    (l1 ++ l2).take j = l1 := by
  subst h
  exact List.take_left l1 l2

theorem drop_append_of_length (l1 l2 : List Nat) (j : Nat) (h : l1.length = j) :
    (l1 ++ l2).drop j = l2 := by
  subst h
  exact List.drop_left l1 l2

theorem insertN_insertAt (l : List Nat) (j n x : Nat) (hj : j ≤ l.length) :
    insertN (insertAt l j x) j n x = insertN l j (n + 1) x := by
  have hlen : (l.take j).length = j := by simp; omega
  have ht : (insertAt l j x).take j = l.take j := by
    unfold insertAt
    exact take_append_of_length _ _ _ hlen
  have hd : (insertAt l j x).drop j = x :: l.drop j := by
    unfold insertAt
    exact drop_append_of_length _ _ _ hlen
  unfold insertN
  rw [ht, hd, List.replicate_succ']
  simp

theorem monoB_set (p : partitioning) (j v : Nat) (hm : p.monoB)
    (hj0 : 0 < j) (hjlt : j + 1 < p.boundaries.length)
    (hlo : p.bnd (j - 1) ≤ v) (hhi : v ≤ p.bnd (j + 1)) :
    (partitioning.mk (p.boundaries.set j v)).monoB := by
  intro k hk
  rw [show (partitioning.mk (p.boundaries.set j v)).boundaries.length =
      p.boundaries.length by simp] at hk
  rw [bnd_set, bnd_set]
  by_cases hkj : j = k
  · rw [if_pos ⟨hkj, by omega⟩, if_neg (by omega)]
    subst hkj
    exact hhi
  · rw [if_neg (by simp [hkj])]
    by_cases hkj1 : j = k + 1
    · rw [if_pos ⟨hkj1, by omega⟩]
      have hk' : k = j - 1 := by omega
      rw [hk']
      exact hlo
    · rw [if_neg (by simp [hkj1])]
      exact hm k hk

theorem iterOp_succ (f : partitioning → Option partitioning) (n : Nat)
    (p : partitioning) :
    iterOp f (n + 1) p =
      (match f p with
       | none => none
       | some q => iterOp f n q) := rfl

theorem iterOp_succ_some (f : partitioning → Option partitioning) (n : Nat)
    (p q : partitioning) (h : f p = some q) :
    iterOp f (n + 1) p = iterOp f n q := by
  rw [iterOp_succ, h]

theorem iterOp_succ_none (f : partitioning → Option partitioning) (n : Nat)
    (p : partitioning) (h : f p = none) : iterOp f (n + 1) p = none := by
  rw [iterOp_succ, h]

theorem growLoop_succ (i n : Nat) (p : partitioning) :
    partitioning.growLoop i (n + 1) p =
      (if i + 1 < p.parts_count ∧ ¬ p.emptyB (i + 1) then
        partitioning.growLoop i n ⟨p.boundaries.set (i + 1) (p.bnd (i + 1) + 1)⟩
      else none) := rfl

theorem shrinkLoop_succ (i n : Nat) (p : partitioning) :
    partitioning.shrinkLoop i (n + 1) p =
      (if i < p.parts_count ∧ ¬ p.emptyB i then
        partitioning.shrinkLoop i n ⟨p.boundaries.set (i + 1) (p.bnd (i + 1) - 1)⟩
      else none) := rfl

theorem adds_end_eq (i : Nat) : ∀ (n : Nat) (p : partitioning),
    i < p.parts_count →
    p.add_parts_end i n = iterOp (fun q => q.add_part_end i) n p := by
  intro n
  induction n with
  | zero =>
    intro p hi
    unfold partitioning.add_parts_end iterOp
    rw [if_pos hi, insertN_zero]
  | succ n ih =>
    intro p hi
    have hlen : i + 1 ≤ p.boundaries.length := by
      unfold partitioning.parts_count at hi
      omega
    have hstep : p.add_part_end i =
        some ⟨insertAt p.boundaries (i + 1) (p.bnd (i + 1))⟩ := by
      unfold partitioning.add_part_end
      rw [if_pos hi]
    have hpc1 : (partitioning.mk
        (insertAt p.boundaries (i + 1) (p.bnd (i + 1)))).parts_count =
        p.parts_count + 1 := by
      unfold partitioning.parts_count
      rw [show (partitioning.mk
          (insertAt p.boundaries (i + 1) (p.bnd (i + 1)))).boundaries.length =
          p.boundaries.length + 1 from length_insertAt _ _ _ hlen]
      unfold partitioning.parts_count at hi
      omega
    have hih := ih ⟨insertAt p.boundaries (i + 1) (p.bnd (i + 1))⟩
      (by rw [hpc1]; omega)
    rw [iterOp_succ_some _ n p _ hstep, ← hih]
    unfold partitioning.add_parts_end
    rw [if_pos hi, if_pos (by rw [hpc1]; omega)]
    rw [show (partitioning.mk
        (insertAt p.boundaries (i + 1) (p.bnd (i + 1)))).bnd (i + 1) =
        p.bnd (i + 1) from getD_insertAt_self _ _ _ hlen]
    rw [show (partitioning.mk
        (insertAt p.boundaries (i + 1) (p.bnd (i + 1)))).boundaries =
        insertAt p.boundaries (i + 1) (p.bnd (i + 1)) from rfl]
    rw [insertN_insertAt _ _ _ _ hlen]

theorem adds_begin_eq (i : Nat) : ∀ (n : Nat) (p : partitioning),
    i < p.parts_count →
    p.add_parts_begin i n = iterOp (fun q => q.add_part_begin i) n p := by
  intro n
  induction n with
  | zero =>
    intro p hi
    unfold partitioning.add_parts_begin iterOp
    rw [if_pos hi, insertN_zero]
  | succ n ih =>
    intro p hi
    have hlen : i ≤ p.boundaries.length := by
      unfold partitioning.parts_count at hi
      omega
    have hstep : p.add_part_begin i =
        some ⟨insertAt p.boundaries i (p.bnd i)⟩ := by
      unfold partitioning.add_part_begin
      rw [if_pos hi]
    have hpc1 : (partitioning.mk
        (insertAt p.boundaries i (p.bnd i))).parts_count =
        p.parts_count + 1 := by
      unfold partitioning.parts_count
      rw [show (partitioning.mk
          (insertAt p.boundaries i (p.bnd i))).boundaries.length =
          p.boundaries.length + 1 from length_insertAt _ _ _ hlen]
      unfold partitioning.parts_count at hi
      omega
    have hih := ih ⟨insertAt p.boundaries i (p.bnd i)⟩ (by rw [hpc1]; omega)
    rw [iterOp_succ_some _ n p _ hstep, ← hih]
    unfold partitioning.add_parts_begin
    rw [if_pos hi, if_pos (by rw [hpc1]; omega)]
    rw [show (partitioning.mk (insertAt p.boundaries i (p.bnd i))).bnd i =
        p.bnd i from getD_insertAt_self _ _ _ hlen]
    rw [show (partitioning.mk (insertAt p.boundaries i (p.bnd i))).boundaries =
        insertAt p.boundaries i (p.bnd i) from rfl]
    rw [insertN_insertAt _ _ _ _ hlen]

theorem grow_fwd_eq (i : Nat) : ∀ (n : Nat) (p : partitioning),
    i + 1 < p.parts_count → i + 1 < W →
    p.grow_by_fwd i n = iterOp (fun q => q.grow i) n p := by
  intro n
  induction n with
  | zero =>
    intro p hi _
    unfold partitioning.grow_by_fwd partitioning.growLoop iterOp
    rw [if_pos hi]
  | succ n ih =>
    intro p hi hw
    by_cases he : p.emptyB (i + 1)
    · have hg : p.grow i = none := by
        unfold partitioning.grow
        rw [show (i + 1) % W = i + 1 from Nat.mod_eq_of_lt hw]
        rw [if_neg (by simp [he])]
      have hl : p.grow_by_fwd i (n + 1) = none := by
        unfold partitioning.grow_by_fwd
        rw [if_pos hi, growLoop_succ, if_neg (by simp [he])]
      rw [hl, iterOp_succ_none _ n p hg]
    · have hg : p.grow i =
          some ⟨p.boundaries.set (i + 1) (p.bnd (i + 1) + 1)⟩ := by
        unfold partitioning.grow
        rw [show (i + 1) % W = i + 1 from Nat.mod_eq_of_lt hw]
        rw [if_pos ⟨hi, he⟩]
      have hl : p.grow_by_fwd i (n + 1) = partitioning.growLoop i n
          ⟨p.boundaries.set (i + 1) (p.bnd (i + 1) + 1)⟩ := by
        unfold partitioning.grow_by_fwd
        rw [if_pos hi, growLoop_succ, if_pos ⟨hi, he⟩]
      have hih := ih ⟨p.boundaries.set (i + 1) (p.bnd (i + 1) + 1)⟩
        (by rw [pc_set]; exact hi) hw
      have hfwd1 : (partitioning.mk
          (p.boundaries.set (i + 1) (p.bnd (i + 1) + 1))).grow_by_fwd i n =
          partitioning.growLoop i n
            ⟨p.boundaries.set (i + 1) (p.bnd (i + 1) + 1)⟩ := by
        unfold partitioning.grow_by_fwd
        rw [if_pos (by rw [pc_set]; exact hi)]
      rw [hl, iterOp_succ_some _ n p _ hg, ← hih, hfwd1]

theorem grow_ra_eq (i : Nat) : ∀ (n : Nat) (p : partitioning),
    i + 1 < p.parts_count → i + 1 < W → p.monoB →
    p.grow_by_ra i n = iterOp (fun q => q.grow i) n p := by
  intro n
  induction n with
  | zero =>
    intro p hi _ _
    unfold partitioning.grow_by_ra iterOp
    rw [if_pos hi, if_pos (Nat.zero_le _)]
    rw [show p.bnd (i + 1) + 0 = p.boundaries.getD (i + 1) 0 from rfl,
       set_getD_self]
  | succ n ih =>
    intro p hi hw hm
    have hlen : i + 2 < p.boundaries.length := by
      unfold partitioning.parts_count at hi
      omega
    by_cases he : p.emptyB (i + 1)
    · have hz : p.bnd (i + 2) - p.bnd (i + 1) = 0 := by
        have h1 : p.bnd (i + 1) = p.bnd (i + 2) := he
        omega
      have hg : p.grow i = none := by
        unfold partitioning.grow
        rw [show (i + 1) % W = i + 1 from Nat.mod_eq_of_lt hw]
        rw [if_neg (by simp [he])]
      have hl : p.grow_by_ra i (n + 1) = none := by
        unfold partitioning.grow_by_ra
        rw [if_pos hi, hz, if_neg (by omega)]
      rw [hl, iterOp_succ_none _ n p hg]
    · have hlt : p.bnd (i + 1) < p.bnd (i + 2) := by
        have h1 : p.bnd (i + 1) ≤ p.bnd (i + 2) := hm (i + 1) hlen
        have h2 : p.bnd (i + 1) ≠ p.bnd (i + 2) := he
        omega
      have hg : p.grow i =
          some ⟨p.boundaries.set (i + 1) (p.bnd (i + 1) + 1)⟩ := by
        unfold partitioning.grow
        rw [show (i + 1) % W = i + 1 from Nat.mod_eq_of_lt hw]
        rw [if_pos ⟨hi, he⟩]
      have hm1 : (partitioning.mk
          (p.boundaries.set (i + 1) (p.bnd (i + 1) + 1))).monoB := by
        refine monoB_set p (i + 1) _ hm (by omega) (by omega) ?_ ?_
        · have h1 : p.bnd i ≤ p.bnd (i + 1) := hm i (by omega)
          show p.bnd (i + 1 - 1) ≤ p.bnd (i + 1) + 1
          have hidx : i + 1 - 1 = i := by omega
          rw [hidx]
          omega
        · show p.bnd (i + 1) + 1 ≤ p.bnd (i + 2)
          omega
      have hih := ih ⟨p.boundaries.set (i + 1) (p.bnd (i + 1) + 1)⟩
        (by rw [pc_set]; exact hi) hw hm1
      have hb1 : (partitioning.mk
          (p.boundaries.set (i + 1) (p.bnd (i + 1) + 1))).bnd (i + 1) =
          p.bnd (i + 1) + 1 := by
        rw [bnd_set, if_pos ⟨rfl, by omega⟩]
      have hb2 : (partitioning.mk
          (p.boundaries.set (i + 1) (p.bnd (i + 1) + 1))).bnd (i + 2) =
          p.bnd (i + 2) := by
        rw [bnd_set, if_neg (by omega)]
      have hL : p.grow_by_ra i (n + 1) =
          if n + 1 ≤ p.bnd (i + 2) - p.bnd (i + 1) then
            some ⟨p.boundaries.set (i + 1) (p.bnd (i + 1) + (n + 1))⟩
          else none := by
        unfold partitioning.grow_by_ra
        rw [if_pos hi]
      have hR : (partitioning.mk
          (p.boundaries.set (i + 1) (p.bnd (i + 1) + 1))).grow_by_ra i n =
          if n ≤ p.bnd (i + 2) - (p.bnd (i + 1) + 1) then
            some ⟨p.boundaries.set (i + 1) (p.bnd (i + 1) + 1 + n)⟩
          else none := by
        unfold partitioning.grow_by_ra
        rw [if_pos (by rw [pc_set]; exact hi), hb1, hb2]
        rw [show (partitioning.mk
            (p.boundaries.set (i + 1) (p.bnd (i + 1) + 1))).boundaries =
            p.boundaries.set (i + 1) (p.bnd (i + 1) + 1) from rfl]
        rw [List.set_set]
      rw [iterOp_succ_some _ n p _ hg, ← hih, hL, hR]
      by_cases hn : n + 1 ≤ p.bnd (i + 2) - p.bnd (i + 1)
      · rw [if_pos hn, if_pos (by omega)]
        rw [show p.bnd (i + 1) + (n + 1) = p.bnd (i + 1) + 1 + n by omega]
      · rw [if_neg hn, if_neg (by omega)]

theorem shrink_fwd_eq (i : Nat) : ∀ (n : Nat) (p : partitioning),
    i + 1 < p.parts_count →
    p.shrink_by_fwd i n = iterOp (fun q => q.shrink i) n p := by
  intro n
  induction n with
  | zero =>
    intro p hi
    unfold partitioning.shrink_by_fwd partitioning.shrinkLoop iterOp
    rw [if_pos hi]
  | succ n ih =>
    intro p hi
    by_cases he : p.emptyB i
    · have hg : p.shrink i = none := by
        unfold partitioning.shrink
        rw [if_neg (by simp [he])]
      have hl : p.shrink_by_fwd i (n + 1) = none := by
        unfold partitioning.shrink_by_fwd
        rw [if_pos hi, shrinkLoop_succ, if_neg (by simp [he])]
      rw [hl, iterOp_succ_none _ n p hg]
    · have hg : p.shrink i =
          some ⟨p.boundaries.set (i + 1) (p.bnd (i + 1) - 1)⟩ := by
        unfold partitioning.shrink
        rw [if_pos ⟨hi, he⟩]
      have hl : p.shrink_by_fwd i (n + 1) = partitioning.shrinkLoop i n
          ⟨p.boundaries.set (i + 1) (p.bnd (i + 1) - 1)⟩ := by
        unfold partitioning.shrink_by_fwd
        rw [if_pos hi, shrinkLoop_succ, if_pos ⟨by omega, he⟩]
      have hih := ih ⟨p.boundaries.set (i + 1) (p.bnd (i + 1) - 1)⟩
        (by rw [pc_set]; exact hi)
      have hfwd1 : (partitioning.mk
          (p.boundaries.set (i + 1) (p.bnd (i + 1) - 1))).shrink_by_fwd i n =
          partitioning.shrinkLoop i n
            ⟨p.boundaries.set (i + 1) (p.bnd (i + 1) - 1)⟩ := by
        unfold partitioning.shrink_by_fwd
        rw [if_pos (by rw [pc_set]; exact hi)]
      rw [hl, iterOp_succ_some _ n p _ hg, ← hih, hfwd1]

theorem shrink_ra_eq (i : Nat) : ∀ (n : Nat) (p : partitioning),
    i + 1 < p.parts_count → p.monoB →
    p.shrink_by_ra i n = iterOp (fun q => q.shrink i) n p := by
  intro n
  induction n with
  | zero =>
    intro p hi _
    unfold partitioning.shrink_by_ra iterOp
    rw [if_pos hi, if_pos (Nat.zero_le _)]
    rw [show p.bnd (i + 1) - 0 = p.boundaries.getD (i + 1) 0 from rfl,
       set_getD_self]
  | succ n ih =>
    intro p hi hm
    have hlen : i + 2 < p.boundaries.length := by
      unfold partitioning.parts_count at hi
      omega
    by_cases he : p.emptyB i
    · have hz : p.bnd (i + 1) - p.bnd i = 0 := by
        have h1 : p.bnd i = p.bnd (i + 1) := he
        omega
      have hg : p.shrink i = none := by
        unfold partitioning.shrink
        rw [if_neg (by simp [he])]
      have hl : p.shrink_by_ra i (n + 1) = none := by
        unfold partitioning.shrink_by_ra
        rw [if_pos hi, hz, if_neg (by omega)]
      rw [hl, iterOp_succ_none _ n p hg]
    · have hlt : p.bnd i < p.bnd (i + 1) := by
        have h1 : p.bnd i ≤ p.bnd (i + 1) := hm i (by omega)
        have h2 : p.bnd i ≠ p.bnd (i + 1) := he
        omega
      have hg : p.shrink i =
          some ⟨p.boundaries.set (i + 1) (p.bnd (i + 1) - 1)⟩ := by
        unfold partitioning.shrink
        rw [if_pos ⟨hi, he⟩]
      have hm1 : (partitioning.mk
          (p.boundaries.set (i + 1) (p.bnd (i + 1) - 1))).monoB := by
        refine monoB_set p (i + 1) _ hm (by omega) (by omega) ?_ ?_
        · show p.bnd (i + 1 - 1) ≤ p.bnd (i + 1) - 1
          have hidx : i + 1 - 1 = i := by omega
          rw [hidx]
          omega
        · show p.bnd (i + 1) - 1 ≤ p.bnd (i + 2)
          have h2 : p.bnd (i + 1) ≤ p.bnd (i + 2) := hm (i + 1) hlen
          omega
      have hih := ih ⟨p.boundaries.set (i + 1) (p.bnd (i + 1) - 1)⟩
        (by rw [pc_set]; exact hi) hm1
      have hb0 : (partitioning.mk
          (p.boundaries.set (i + 1) (p.bnd (i + 1) - 1))).bnd i =
          p.bnd i := by
        rw [bnd_set, if_neg (by omega)]
      have hb1 : (partitioning.mk
          (p.boundaries.set (i + 1) (p.bnd (i + 1) - 1))).bnd (i + 1) =
          p.bnd (i + 1) - 1 := by
        rw [bnd_set, if_pos ⟨rfl, by omega⟩]
      have hL : p.shrink_by_ra i (n + 1) =
          if n + 1 ≤ p.bnd (i + 1) - p.bnd i then
            some ⟨p.boundaries.set (i + 1) (p.bnd (i + 1) - (n + 1))⟩
          else none := by
        unfold partitioning.shrink_by_ra
        rw [if_pos hi]
      have hR : (partitioning.mk
          (p.boundaries.set (i + 1) (p.bnd (i + 1) - 1))).shrink_by_ra i n =
          if n ≤ p.bnd (i + 1) - 1 - p.bnd i then
            some ⟨p.boundaries.set (i + 1) (p.bnd (i + 1) - 1 - n)⟩
          else none := by
        unfold partitioning.shrink_by_ra
        rw [if_pos (by rw [pc_set]; exact hi), hb0, hb1]
        rw [show (partitioning.mk
            (p.boundaries.set (i + 1) (p.bnd (i + 1) - 1))).boundaries =
            p.boundaries.set (i + 1) (p.bnd (i + 1) - 1) from rfl]
        rw [List.set_set]
      rw [iterOp_succ_some _ n p _ hg, ← hih, hL, hR]
      by_cases hn : n + 1 ≤ p.bnd (i + 1) - p.bnd i
      · rw [if_pos hn, if_pos (by omega)]
        rw [show p.bnd (i + 1) - (n + 1) = p.bnd (i + 1) - 1 - n by omega]
      · rw [if_neg hn, if_neg (by omega)]

/-- C8: for a valid part index (and, for grow/shrink, monotone boundaries —
true in every reachable state — and a `size_t`-representable index), each
batched operation produces exactly the partitioning obtained by calling the
singular operation `n` times: `add_parts_end`/`add_parts_begin` versus `n`
single insertions, and both the step-by-step (forward-iterator) and the O(1)
arithmetic (random-access) branches of `grow_by`/`shrink_by` versus `n`
single `grow`/`shrink` calls; the results agree as whole partitionings, hence
in `parts_count()` and in every per-part size. -/
theorem batch_singular_equivalence (p : partitioning) (i n : Nat) :
    (i < p.parts_count →
      p.add_parts_end i n = iterOp (fun q => q.add_part_end i) n p) ∧
    (i < p.parts_count →
      p.add_parts_begin i n = iterOp (fun q => q.add_part_begin i) n p) ∧
    (i + 1 < p.parts_count → i + 1 < W →
      p.grow_by_fwd i n = iterOp (fun q => q.grow i) n p) ∧
    (i + 1 < p.parts_count → i + 1 < W → p.monoB →
      p.grow_by_ra i n = iterOp (fun q => q.grow i) n p) ∧
    (i + 1 < p.parts_count →
      p.shrink_by_fwd i n = iterOp (fun q => q.shrink i) n p) ∧
    (i + 1 < p.parts_count → p.monoB →
      p.shrink_by_ra i n = iterOp (fun q => q.shrink i) n p) :=
  ⟨fun h => adds_end_eq i n p h,
   fun h => adds_begin_eq i n p h,
   fun h hw => grow_fwd_eq i n p h hw,
   fun h hw hm => grow_ra_eq i n p h hw hm,
   fun h => shrink_fwd_eq i n p h,
   fun h hm => shrink_ra_eq i n p h hm⟩

/-- Witness: the equivalences at a concrete partitioning (boundaries
`[0, 2, 5]`, so part 0 = [0,2) and part 1 = [2,5)), index 0, batch size 2. -/
theorem batch_singular_equivalence_witness :
    ((partitioning.mk [0, 2, 5]).add_parts_end 0 2 =
      iterOp (fun q => q.add_part_end 0) 2 ⟨[0, 2, 5]⟩) ∧
    ((partitioning.mk [0, 2, 5]).grow_by_ra 0 2 =
      iterOp (fun q => q.grow 0) 2 ⟨[0, 2, 5]⟩) ∧
    ((partitioning.mk [0, 2, 5]).shrink_by_ra 0 2 =
      iterOp (fun q => q.shrink 0) 2 ⟨[0, 2, 5]⟩) := by
  have hmono : (partitioning.mk [0, 2, 5]).monoB := by
    intro k hk
    have hk2 : k < 2 := by
      have : k + 1 < 3 := by simpa using hk
      omega
    rcases k with _ | _ | k
    · decide
    · decide
    · exact absurd hk2 (by omega)
  have h := batch_singular_equivalence ⟨[0, 2, 5]⟩ 0 2
  exact ⟨h.1 (by decide),
    h.2.2.2.1 (by decide) (by norm_num [W]) hmono,
    h.2.2.2.2.2 (by decide) hmono⟩

/-! ## Claim C9: cursor equality is positional -/

/-- C9: for two cursors whose handles are live (so `base` yields a position
for both), `operator==` returns true exactly when the cursors reference the
same shared table AND their handles resolve to the same base position; in
particular two distinct handles currently resolving to the same position
compare equal, and `operator!=` returns true exactly when `operator==` does
not (its exact negation). -/
theorem cursor_equality_positional (env : Nat → algorithm_data)
    (c1 c2 : TCursor) (b1 b2 : Nat)
    (h1 : (env c1.tid).base c1.idx = some b1)
    (h2 : (env c2.tid).base c2.idx = some b2) :
    (cursor_beq env c1 c2 = some true ↔ (c1.tid = c2.tid ∧ b1 = b2)) ∧
    (cursor_bne env c1 c2 = some true ↔ ¬ (c1.tid = c2.tid ∧ b1 = b2)) ∧
    (c1.tid = c2.tid → b1 = b2 → cursor_beq env c1 c2 = some true) := by
  by_cases ht : c1.tid = c2.tid
  · have h2' : (env c1.tid).base c2.idx = some b2 := by
      rw [ht]
      exact h2
    have hbeq : cursor_beq env c1 c2 = some (b1 == b2) := by
      unfold cursor_beq
      rw [if_pos ht, h1, h2']
    have hbne : cursor_bne env c1 c2 = some (!(b1 == b2)) := by
      unfold cursor_bne
      rw [hbeq]
      rfl
    refine ⟨?_, ?_, ?_⟩
    · rw [hbeq]
      constructor
      · intro hb
        have hbb : (b1 == b2) = true := Option.some.inj hb
        exact ⟨ht, by simpa using hbb⟩
      · intro hb
        rw [hb.2]
        simp
    · rw [hbne]
      constructor
      · intro hb hcon
        have hbb : (!(b1 == b2)) = true := Option.some.inj hb
        rw [hcon.2] at hbb
        simp at hbb
      · intro hcon
        have hne : b1 ≠ b2 := fun he => hcon ⟨ht, he⟩
        simp [hne]
    · intro _ he
      rw [hbeq, he]
      simp
  · have hbeq : cursor_beq env c1 c2 = some false := by
      unfold cursor_beq
      rw [if_neg ht]
    have hbne : cursor_bne env c1 c2 = some true := by
      unfold cursor_bne
      rw [hbeq]
      rfl
    refine ⟨?_, ?_, ?_⟩
    · rw [hbeq]
      constructor
      · intro hb
        exact absurd (Option.some.inj hb) (by simp)
      · intro hb
        exact absurd hb.1 ht
    · rw [hbne]
      exact ⟨fun _ hcon => ht hcon.1, fun _ => rfl⟩
    · intro hcon
      exact absurd hcon ht

/-- Witness: in the reachable table over [0,2) after creating the begin
cursor and copying it, handles 2 and 3 are distinct but both resolve to
position 0, and the corresponding cursors compare equal. -/
theorem cursor_equality_positional_witness :
    cursor_beq (fun _ => algorithm_data.mk ⟨[0, 0, 0, 2]⟩
        [some 2, some 3, some 1, some 0]) ⟨0, 2⟩ ⟨0, 3⟩ = some true :=
  (cursor_equality_positional
    (fun _ => algorithm_data.mk ⟨[0, 0, 0, 2]⟩ [some 2, some 3, some 1, some 0])
    ⟨0, 2⟩ ⟨0, 3⟩ 0 0 (by decide) (by decide)).2.2 rfl rfl

/-! ## Shared lemmas for the handle-table claims (C3, C10)

Scan/search/swap characterisations, uniform `base` computation, and the
frame properties of each table operation under the invariant `Inv`. -/

theorem sub1w_add_one_mod (a : Nat) (h : a < W) : (sub1w a + 1) % W = a := by
  have hW : 0 < W := by norm_num [W]
  cases a with
  | zero =>
    rw [sub1w_zero]
    rw [show W - 1 + 1 = W by omega]
    simp
  | succ a =>
    rw [sub1w_succ a h]
    exact Nat.mod_eq_of_lt (by omega)

theorem scanNEgo_ge (pt : partitioning) :
    ∀ (fuel q : Nat), q ≤ algorithm_data.scanNEgo pt fuel q := by
  intro fuel
  induction fuel with
  | zero => intro q; unfold algorithm_data.scanNEgo; exact Nat.le_refl _
  | succ fuel ih =>
    intro q
    unfold algorithm_data.scanNEgo
    split
    · exact le_trans (by omega) (ih (q + 1))
    · exact Nat.le_refl _

theorem scanNEgo_empty (pt : partitioning) :
    ∀ (fuel q k : Nat), q ≤ k → k < algorithm_data.scanNEgo pt fuel q → pt.emptyB k := by
  intro fuel
  induction fuel with
  | zero =>
    intro q k hqk hk
    unfold algorithm_data.scanNEgo at hk
    omega
  | succ fuel ih =>
    intro q k hqk hk
    unfold algorithm_data.scanNEgo at hk
    split at hk
    case isTrue hc =>
      rcases Nat.eq_or_lt_of_le hqk with he | hlt
      · rw [← he]
        exact hc.2
      · exact ih (q + 1) k hlt hk
    case isFalse => omega

theorem scanNEgo_stop (pt : partitioning) :
    ∀ (fuel q : Nat), pt.parts_count ≤ fuel + q →
      algorithm_data.scanNEgo pt fuel q < pt.parts_count → ¬ pt.emptyB (algorithm_data.scanNEgo pt fuel q) := by
  intro fuel
  induction fuel with
  | zero =>
    intro q hf hlt
    unfold algorithm_data.scanNEgo at hlt
    omega
  | succ fuel ih =>
    intro q hf hlt
    unfold algorithm_data.scanNEgo at hlt ⊢
    split at hlt
    case isTrue hc =>
      rw [if_pos hc]
      exact ih (q + 1) (by omega) hlt
    case isFalse hc =>
      rw [if_neg hc]
      intro he
      exact hc ⟨hlt, he⟩

theorem scanNE_ge (pt : partitioning) (q : Nat) : q ≤ algorithm_data.scanNE pt q :=
  scanNEgo_ge pt _ q

theorem scanNE_empty (pt : partitioning) (q k : Nat) (hqk : q ≤ k)
    (hk : k < algorithm_data.scanNE pt q) : pt.emptyB k :=
  scanNEgo_empty pt _ q k hqk hk

theorem scanNE_stop (pt : partitioning) (q : Nat)
    (hlt : algorithm_data.scanNE pt q < pt.parts_count) : ¬ pt.emptyB (algorithm_data.scanNE pt q) :=
  scanNEgo_stop pt _ q (by omega) hlt

theorem scanPrev_le (pt : partitioning) : ∀ r, algorithm_data.scanPrev pt r ≤ r := by
  intro r
  induction r with
  | zero => exact Nat.le_refl _
  | succ r ih =>
    unfold algorithm_data.scanPrev
    split
    · omega
    · exact Nat.le_refl _

theorem scanPrev_empty (pt : partitioning) :
    ∀ r k, algorithm_data.scanPrev pt r < k → k ≤ r → pt.emptyB k := by
  intro r
  induction r with
  | zero =>
    intro k h1 h2
    unfold algorithm_data.scanPrev at h1
    omega
  | succ r ih =>
    intro k h1 h2
    unfold algorithm_data.scanPrev at h1
    split at h1
    case isTrue hc =>
      rcases Nat.eq_or_lt_of_le h2 with he | hlt
      · rw [he]
        exact hc
      · exact ih k h1 (by omega)
    case isFalse hc => omega

theorem findIdxO_some {α : Type} (pr : α → Bool) (dflt : α) :
    ∀ (l : List α) (j : Nat), findIdxO pr l = some j →
      j < l.length ∧ pr (l.getD j dflt) = true := by
  intro l
  induction l with
  | nil =>
    intro j h
    exact absurd h (by simp [findIdxO])
  | cons a t ih =>
    intro j h
    unfold findIdxO at h
    split at h
    case isTrue hc =>
      have hj : j = 0 := by
        have := Option.some.inj h
        omega
      subst hj
      exact ⟨by simp, by simpa using hc⟩
    case isFalse hc =>
      rcases Option.map_eq_some'.mp h with ⟨j', hj', he⟩
      subst he
      obtain ⟨h1, h2⟩ := ih j' hj'
      exact ⟨by simp; omega, by simpa using h2⟩

theorem findIdxO_none {α : Type} (pr : α → Bool) (dflt : α) :
    ∀ (l : List α) (k : Nat), findIdxO pr l = none → k < l.length →
      pr (l.getD k dflt) = false := by
  intro l
  induction l with
  | nil => intro k _ hk; simp at hk
  | cons a t ih =>
    intro k h hk
    unfold findIdxO at h
    split at h
    case isTrue hc => exact absurd h (by simp)
    case isFalse hc =>
      cases k with
      | zero => simpa using Bool.of_not_eq_true hc
      | succ k =>
        have ht : findIdxO pr t = none := by
          cases hft : findIdxO pr t
          · rfl
          · rw [hft] at h
            simp at h
        simpa using ih k ht (by simpa using hk)

theorem getD_map_opt (M : List (Option Nat)) (f : Nat → Nat) (k : Nat) :
    (M.map (Option.map f)).getD k none = Option.map f (M.getD k none) := by
  induction M generalizing k with
  | nil => simp
  | cons a t ih =>
    cases k with
    | zero => simp
    | succ k => simpa using ih k

theorem length_swapIdx (M : List (Option Nat)) (i j : Nat) :
    (swapIdx M i j).length = M.length := by
  unfold swapIdx
  simp

theorem getD_swapIdx (M : List (Option Nat)) (i j k : Nat)
    (hi : i < M.length) (hj : j < M.length) :
    (swapIdx M i j).getD k none =
      if j = k then M.getD i none
      else if i = k then M.getD j none
      else M.getD k none := by
  unfold swapIdx
  rw [show (M.getD j default : Option Nat) = M.getD j none from rfl,
     show (M.getD i default : Option Nat) = M.getD i none from rfl]
  rw [getD_set, getD_set]
  simp only [List.length_set]
  by_cases hjk : j = k
  · rw [if_pos ⟨hjk, hj⟩, if_pos hjk]
  · rw [if_neg (fun hc => hjk hc.1), if_neg hjk]
    by_cases hik : i = k
    · rw [if_pos ⟨hik, hi⟩, if_pos hik]
    · rw [if_neg (fun hc => hik hc.1), if_neg hik]

theorem bnd_eq_of_empty_range (P : partitioning) (u : Nat) :
    ∀ v, u ≤ v → (∀ k, u ≤ k → k < v → P.emptyB k) → P.bnd u = P.bnd v := by
  intro v
  induction v with
  | zero =>
    intro hu _
    have : u = 0 := by omega
    rw [this]
  | succ v ih =>
    intro hu he
    rcases Nat.eq_or_lt_of_le hu with h1 | h1
    · rw [h1]
    · have h2 : P.bnd u = P.bnd v := ih (by omega) (fun k hk1 hk2 => he k hk1 (by omega))
      rw [h2]
      exact he v (by omega) (by omega)

theorem base_some (d : algorithm_data) (h v : Nat)
    (hh : h < d.parts_mapping.length) (hv : d.mval h = some v)
    (hvle : v ≤ d.pt.parts_count) (hpc : 1 ≤ d.pt.parts_count) :
    d.base h = some (d.pt.bnd v) := by
  unfold algorithm_data.base
  rw [if_pos hh, hv]
  show (if v = d.pt.parts_count then
      Option.map Prod.snd (d.pt.part (d.pt.parts_count - 1))
    else Option.map Prod.fst (d.pt.part v)) = some (d.pt.bnd v)
  by_cases hs : v = d.pt.parts_count
  · rw [if_pos hs]
    unfold partitioning.part
    rw [if_pos (by omega)]
    rw [show d.pt.parts_count - 1 + 1 = d.pt.parts_count by omega]
    rw [hs]
    rfl
  · rw [if_neg hs]
    unfold partitioning.part
    rw [if_pos (by omega)]
    rfl

theorem base_none (d : algorithm_data) (h v : Nat)
    (hh : h < d.parts_mapping.length) (hv : d.mval h = some v)
    (hvgt : d.pt.parts_count < v) : d.base h = none := by
  unfold algorithm_data.base
  rw [if_pos hh, hv]
  show (if v = d.pt.parts_count then
      Option.map Prod.snd (d.pt.part (d.pt.parts_count - 1))
    else Option.map Prod.fst (d.pt.part v)) = none
  rw [if_neg (by omega)]
  unfold partitioning.part
  rw [if_neg (by omega)]
  rfl

theorem base_congr (d d' : algorithm_data) (h' : Nat) (hpt : d'.pt = d.pt)
    (hlen : d'.parts_mapping.length = d.parts_mapping.length)
    (hval : d'.mval h' = d.mval h') : d'.base h' = d.base h' := by
  unfold algorithm_data.base
  rw [hpt, hlen, hval]

theorem live_of_base_some (d : algorithm_data) (h : Nat) (x : Nat)
    (hb : d.base h = some x) :
    h < d.parts_mapping.length ∧ d.mval h ≠ none := by
  unfold algorithm_data.base at hb
  by_cases hh : h < d.parts_mapping.length
  · rw [if_pos hh] at hb
    refine ⟨hh, ?_⟩
    intro hnone
    rw [hnone] at hb
    exact Option.noConfusion hb
  · rw [if_neg hh] at hb
    simp at hb

/-- Common core of the `copy_iterator` analysis: given the shape of the
new mapping (slot `c` holds `some part`, every other slot holds the shifted
old entry), the invariant is preserved, every previously live handle stays
live and resolves to the same position, and the new handle resolves to the
source's position. -/
theorem copy_frame_core (b : Nat) (d : algorithm_data) (h part c : Nat)
    (M' : List (Option Nat)) (hI : Inv b d)
    (hh : h < d.parts_mapping.length) (hpart : d.mval h = some part)
    (hpartlt : part < d.pt.parts_count)
    (hmlen : d.parts_mapping.length ≤ M'.length)
    (hc : c < M'.length)
    (hform : ∀ k, k < M'.length → M'.getD k none =
      if k = c then some part
      else Option.map (fun p => if part ≤ p then p + 1 else p)
        (d.mval k))
    (hlive_ne : ∀ h', h' < d.parts_mapping.length → d.mval h' ≠ none →
      h' ≠ c)
    (hsm : (partitioning.mk (insertAt d.pt.boundaries part
      (d.pt.bnd part))).parts_count < W) :
    Inv b ⟨⟨insertAt d.pt.boundaries part (d.pt.bnd part)⟩, M'⟩ ∧
    (∀ h', h' < d.parts_mapping.length → d.mval h' ≠ none →
      (algorithm_data.mk ⟨insertAt d.pt.boundaries part (d.pt.bnd part)⟩
        M').mval h' ≠ none ∧
      (algorithm_data.mk ⟨insertAt d.pt.boundaries part (d.pt.bnd part)⟩
        M').base h' = d.base h') ∧
    (algorithm_data.mk ⟨insertAt d.pt.boundaries part (d.pt.bnd part)⟩
      M').mval c = some part ∧
    c ≠ h ∧
    (algorithm_data.mk ⟨insertAt d.pt.boundaries part (d.pt.bnd part)⟩
      M').base c = d.base h := by
  obtain ⟨hI1, hI2, hI3, hI4, hI5, hI6⟩ := hI
  have hpcdef : d.pt.parts_count = d.pt.boundaries.length - 1 := rfl
  have hpc1 : 1 ≤ d.pt.parts_count := by omega
  have hplen : part ≤ d.pt.boundaries.length := by omega
  have hblen' : (insertAt d.pt.boundaries part (d.pt.bnd part)).length =
      d.pt.boundaries.length + 1 := length_insertAt _ _ _ hplen
  have hpc' : (partitioning.mk (insertAt d.pt.boundaries part
      (d.pt.bnd part))).parts_count = d.pt.parts_count + 1 := by
    show (insertAt d.pt.boundaries part (d.pt.bnd part)).length - 1 =
      d.pt.parts_count + 1
    omega
  have hbnd_lt : ∀ k, k < part →
      (partitioning.mk (insertAt d.pt.boundaries part (d.pt.bnd part))).bnd k =
      d.pt.bnd k := fun k hk => getD_insertAt_lt _ _ _ _ hplen hk
  have hbnd_self :
      (partitioning.mk (insertAt d.pt.boundaries part (d.pt.bnd part))).bnd
        part = d.pt.bnd part := getD_insertAt_self _ _ _ hplen
  have hbnd_gt : ∀ k, part < k →
      (partitioning.mk (insertAt d.pt.boundaries part (d.pt.bnd part))).bnd k =
      d.pt.bnd (k - 1) := fun k hk => getD_insertAt_gt _ _ _ _ hplen hk
  have hfinj : ∀ v1 v2 : Nat, v1 ≠ v2 →
      (if part ≤ v1 then v1 + 1 else v1) ≠
      (if part ≤ v2 then v2 + 1 else v2) := by
    intro v1 v2 hne
    split_ifs <;> omega
  have hfne : ∀ v : Nat, (if part ≤ v then v + 1 else v) ≠ part := by
    intro v
    split_ifs <;> omega
  have hc1 : (1 : Nat) ≠ c :=
    hlive_ne 1 (by omega) (by rw [hI5]; exact Option.noConfusion)
  have hsent' : M'.getD 1 none = some (d.pt.parts_count + 1) := by
    rw [hform 1 (by omega), if_neg hc1, hI5]
    show some (if part ≤ d.pt.parts_count then d.pt.parts_count + 1
      else d.pt.parts_count) = some (d.pt.parts_count + 1)
    rw [if_pos (by omega)]
  refine ⟨⟨?_, ?_, hsm, ?_, ?_, ?_⟩, ?_, ?_, ?_, ?_⟩
  · show 2 ≤ (insertAt d.pt.boundaries part (d.pt.bnd part)).length
    omega
  · show 2 ≤ M'.length
    omega
  · show (partitioning.mk (insertAt d.pt.boundaries part (d.pt.bnd part))).bnd
      ((insertAt d.pt.boundaries part (d.pt.bnd part)).length - 1) = b
    rw [hblen', show d.pt.boundaries.length + 1 - 1 = d.pt.boundaries.length
      by omega]
    rw [hbnd_gt _ (by omega)]
    exact hI4
  · show M'.getD 1 none = some ((partitioning.mk (insertAt d.pt.boundaries
      part (d.pt.bnd part))).parts_count)
    rw [hsent', hpc']
  · -- injectivity of the new mapping
    intro h1 hl1 h2 hl2 hne
    show M'.getD h1 none = none ∨ M'.getD h1 none ≠ M'.getD h2 none
    rw [hform h1 hl1, hform h2 hl2]
    by_cases he1 : h1 = c
    · rw [if_pos he1, if_neg (by omega)]
      right
      cases hv2 : d.mval h2 with
      | none => simp
      | some v2 =>
        intro hcon
        have := Option.some.inj hcon
        exact hfne v2 this.symm
    · rw [if_neg he1]
      by_cases he2 : h2 = c
      · rw [if_pos he2]
        cases hv1 : d.mval h1 with
        | none => exact Or.inl rfl
        | some v1 =>
          right
          intro hcon
          have := Option.some.inj hcon
          exact hfne v1 this
      · rw [if_neg he2]
        cases hv1 : d.mval h1 with
        | none => exact Or.inl rfl
        | some v1 =>
          cases hv2 : d.mval h2 with
          | none => right; simp
          | some v2 =>
            right
            have hr1 : h1 < d.parts_mapping.length := by
              by_contra hcon
              have : d.mval h1 = none :=
                List.getD_eq_default _ _ (by omega)
              rw [this] at hv1
              exact Option.noConfusion hv1
            have hr2 : h2 < d.parts_mapping.length := by
              by_contra hcon
              have : d.mval h2 = none :=
                List.getD_eq_default _ _ (by omega)
              rw [this] at hv2
              exact Option.noConfusion hv2
            have hold := hI6 h1 hr1 h2 hr2 hne
            rcases hold with hnone | hneq
            · rw [hnone] at hv1
              exact Option.noConfusion hv1
            · rw [hv1, hv2] at hneq
              have hvne : v1 ≠ v2 := fun he => hneq (by rw [he])
              intro hcon
              exact hfinj v1 v2 hvne (Option.some.inj hcon)
  · -- frame for existing live handles
    intro h' hl' hlive
    have hne_c : h' ≠ c := hlive_ne h' hl' hlive
    cases hv : d.mval h' with
    | none => exact absurd hv hlive
    | some v =>
      have hval' : M'.getD h' none =
          some (if part ≤ v then v + 1 else v) := by
        rw [hform h' (by omega), if_neg hne_c, hv]
        rfl
      constructor
      · show M'.getD h' none ≠ none
        rw [hval']
        exact Option.noConfusion
      · by_cases hvle : v ≤ d.pt.parts_count
        · have hbase : d.base h' = some (d.pt.bnd v) :=
            base_some d h' v hl' hv hvle hpc1
          have hbase' : (algorithm_data.mk ⟨insertAt d.pt.boundaries part
              (d.pt.bnd part)⟩ M').base h' =
              some ((partitioning.mk (insertAt d.pt.boundaries part
                (d.pt.bnd part))).bnd (if part ≤ v then v + 1 else v)) := by
            refine base_some _ h' _ (by show h' < M'.length; omega) hval' ?_ ?_
            · show (if part ≤ v then v + 1 else v) ≤
                (partitioning.mk (insertAt d.pt.boundaries part
                  (d.pt.bnd part))).parts_count
              rw [hpc']
              split_ifs <;> omega
            · show 1 ≤ (partitioning.mk (insertAt d.pt.boundaries part
                (d.pt.bnd part))).parts_count
              rw [hpc']
              omega
          rw [hbase, hbase']
          by_cases hvp : part ≤ v
          · rw [if_pos hvp, hbnd_gt (v + 1) (by omega),
               show v + 1 - 1 = v by omega]
          · rw [if_neg hvp, hbnd_lt v (by omega)]
        · have hbase : d.base h' = none := base_none d h' v hl' hv (by omega)
          have hbase' : (algorithm_data.mk ⟨insertAt d.pt.boundaries part
              (d.pt.bnd part)⟩ M').base h' = none := by
            refine base_none _ h' (if part ≤ v then v + 1 else v)
              (by show h' < M'.length; omega) hval' ?_
            show (partitioning.mk (insertAt d.pt.boundaries part
              (d.pt.bnd part))).parts_count < (if part ≤ v then v + 1 else v)
            rw [hpc']
            split_ifs <;> omega
          rw [hbase, hbase']
  · show M'.getD c none = some part
    rw [hform c hc, if_pos rfl]
  · exact fun he => (hlive_ne h hh (by rw [hpart]; exact Option.noConfusion))
      he.symm
  · have hbc : (algorithm_data.mk ⟨insertAt d.pt.boundaries part
        (d.pt.bnd part)⟩ M').base c =
        some ((partitioning.mk (insertAt d.pt.boundaries part
          (d.pt.bnd part))).bnd part) := by
      refine base_some _ c part (by show c < M'.length; omega) ?_ ?_ ?_
      · show M'.getD c none = some part
        rw [hform c hc, if_pos rfl]
      · show part ≤ (partitioning.mk (insertAt d.pt.boundaries part
          (d.pt.bnd part))).parts_count
        rw [hpc']
        omega
      · show 1 ≤ (partitioning.mk (insertAt d.pt.boundaries part
          (d.pt.bnd part))).parts_count
        rw [hpc']
        omega
    rw [hbc, hbnd_self]
    exact (base_some d h part hh hpart (by omega) hpc1).symm

/-- `copy_iterator` under the invariant: the invariant is preserved, every
previously live handle remains live at an unchanged base position, and the
returned handle is a fresh live handle (distinct from the source) resolving
to the source's base position. -/
theorem copy_frame (b : Nat) (d d' : algorithm_data) (h c : Nat)
    (hI : Inv b d) (hs : d.copy_iterator h = some (d', c))
    (hsm : d'.pt.parts_count < W) :
    Inv b d' ∧
    d.parts_mapping.length ≤ d'.parts_mapping.length ∧
    (∀ h', h' < d.parts_mapping.length → d.mval h' ≠ none →
      h' < d'.parts_mapping.length ∧ d'.mval h' ≠ none ∧
      d'.base h' = d.base h') ∧
    c < d'.parts_mapping.length ∧ d'.mval c ≠ none ∧ c ≠ h ∧
    d'.base c = d.base h := by
  unfold algorithm_data.copy_iterator at hs
  by_cases hh : h < d.parts_mapping.length
  case neg =>
    rw [if_neg hh] at hs
    exact absurd hs (by simp)
  rw [if_pos hh] at hs
  cases hpart : d.mval h with
  | none =>
    rw [hpart] at hs
    exact absurd hs (by simp)
  | some part =>
    rw [hpart] at hs
    have hs1 : (match d.pt.add_part_begin part with
      | none => none
      | some pt' =>
        match findIdxO (· == none) (d.parts_mapping.map (Option.map
            (fun p => if part ≤ p then p + 1 else p))) with
        | some j => some ((⟨pt', (d.parts_mapping.map (Option.map
            (fun p => if part ≤ p then p + 1 else p))).set j (some part)⟩ :
            algorithm_data), j)
        | none => some ((⟨pt', (d.parts_mapping.map (Option.map
            (fun p => if part ≤ p then p + 1 else p))) ++ [some part]⟩ :
            algorithm_data), (d.parts_mapping.map (Option.map
            (fun p => if part ≤ p then p + 1 else p))).length)) =
        some (d', c) := hs
    cases hab : d.pt.add_part_begin part with
    | none =>
      rw [hab] at hs1
      exact absurd hs1 (by simp)
    | some pt' =>
      rw [hab] at hs1
      have hpartlt : part < d.pt.parts_count := by
        by_contra hcon
        unfold partitioning.add_part_begin at hab
        rw [if_neg hcon] at hab
        exact Option.noConfusion hab
      have hpt' : pt' = ⟨insertAt d.pt.boundaries part (d.pt.bnd part)⟩ := by
        unfold partitioning.add_part_begin at hab
        rw [if_pos hpartlt] at hab
        exact (Option.some.inj hab).symm
      subst hpt'
      cases hfind : findIdxO (· == none) (d.parts_mapping.map (Option.map
          (fun p => if part ≤ p then p + 1 else p))) with
      | some j =>
        rw [hfind] at hs1
        have hpair := Option.some.inj hs1
        have hd' : d' = ⟨⟨insertAt d.pt.boundaries part (d.pt.bnd part)⟩,
            (d.parts_mapping.map (Option.map
              (fun p => if part ≤ p then p + 1 else p))).set j
              (some part)⟩ := (congrArg Prod.fst hpair).symm
        have hc' : c = j := (congrArg Prod.snd hpair).symm
        subst hd'
        subst hc'
        obtain ⟨hjlen, hjpred⟩ :=
          findIdxO_some (· == none) none (d.parts_mapping.map (Option.map
            (fun p => if part ≤ p then p + 1 else p))) c hfind
        have hjnone : (d.parts_mapping.map (Option.map
            (fun p => if part ≤ p then p + 1 else p))).getD c none =
            none := by
          simpa using hjpred
        have hlive_ne : ∀ h', h' < d.parts_mapping.length →
            d.mval h' ≠ none → h' ≠ c := by
          intro h' hl' hlv he
          rw [← he, getD_map_opt] at hjnone
          cases hv : d.parts_mapping.getD h' none with
          | none => exact hlv hv
          | some v =>
            rw [hv] at hjnone
            exact Option.noConfusion hjnone
        have hmlen : ((d.parts_mapping.map (Option.map
            (fun p => if part ≤ p then p + 1 else p))).set c
            (some part)).length = d.parts_mapping.length := by
          simp
        have hform : ∀ k, k < ((d.parts_mapping.map (Option.map
            (fun p => if part ≤ p then p + 1 else p))).set c
            (some part)).length →
            ((d.parts_mapping.map (Option.map
              (fun p => if part ≤ p then p + 1 else p))).set c
              (some part)).getD k none =
            if k = c then some part
            else Option.map (fun p => if part ≤ p then p + 1 else p)
              (d.mval k) := by
          intro k hk
          rw [getD_set]
          by_cases hkj : c = k
          · rw [if_pos ⟨hkj, by simpa using hjlen⟩, if_pos hkj.symm]
          · rw [if_neg (fun hcon => hkj hcon.1),
               if_neg (fun hcon => hkj hcon.symm), getD_map_opt]
            rfl
        have hcore := copy_frame_core b d h part c
          ((d.parts_mapping.map (Option.map
            (fun p => if part ≤ p then p + 1 else p))).set c (some part))
          ⟨hI.1, hI.2.1, hI.2.2.1, hI.2.2.2.1, hI.2.2.2.2.1, hI.2.2.2.2.2⟩
          hh hpart hpartlt (by rw [hmlen]) (by rw [hmlen]; simpa using hjlen)
          hform hlive_ne hsm
        obtain ⟨hInv', hframe, hmc, hch, hbc⟩ := hcore
        refine ⟨hInv', by rw [hmlen], ?_, by rw [hmlen]; simpa using hjlen,
          ?_, hch, hbc⟩
        · intro h' hl' hlv
          obtain ⟨hlv', hb'⟩ := hframe h' hl' hlv
          exact ⟨by rw [hmlen]; omega, hlv', hb'⟩
        · rw [hmc]
          simp
      | none =>
        rw [hfind] at hs1
        have hpair := Option.some.inj hs1
        have hd' : d' = ⟨⟨insertAt d.pt.boundaries part (d.pt.bnd part)⟩,
            (d.parts_mapping.map (Option.map
              (fun p => if part ≤ p then p + 1 else p))) ++ [some part]⟩ :=
          (congrArg Prod.fst hpair).symm
        have hc' : c = (d.parts_mapping.map (Option.map
            (fun p => if part ≤ p then p + 1 else p))).length :=
          (congrArg Prod.snd hpair).symm
        subst hd'
        subst hc'
        have hshlen : (d.parts_mapping.map (Option.map
            (fun p => if part ≤ p then p + 1 else p))).length =
            d.parts_mapping.length := by simp
        have hmlen : ((d.parts_mapping.map (Option.map
            (fun p => if part ≤ p then p + 1 else p))) ++
            [some part]).length = d.parts_mapping.length + 1 := by simp
        have hlive_ne : ∀ h', h' < d.parts_mapping.length →
            d.mval h' ≠ none → h' ≠ (d.parts_mapping.map (Option.map
              (fun p => if part ≤ p then p + 1 else p))).length := by
          intro h' hl' _ he
          rw [hshlen] at he
          omega
        have hform : ∀ k, k < ((d.parts_mapping.map (Option.map
            (fun p => if part ≤ p then p + 1 else p))) ++
            [some part]).length →
            ((d.parts_mapping.map (Option.map
              (fun p => if part ≤ p then p + 1 else p))) ++
              [some part]).getD k none =
            if k = (d.parts_mapping.map (Option.map
              (fun p => if part ≤ p then p + 1 else p))).length
            then some part
            else Option.map (fun p => if part ≤ p then p + 1 else p)
              (d.mval k) := by
          intro k hk
          rw [hmlen] at hk
          by_cases hkc : k = (d.parts_mapping.map (Option.map
              (fun p => if part ≤ p then p + 1 else p))).length
          · rw [if_pos hkc, hkc,
               getD_append_ge _ _ _ _ (Nat.le_refl _)]
            simp
          · rw [if_neg hkc]
            have hklt : k < (d.parts_mapping.map (Option.map
                (fun p => if part ≤ p then p + 1 else p))).length := by
              rw [hshlen]
              rw [hshlen] at hkc
              omega
            rw [getD_append_lt _ _ _ _ hklt, getD_map_opt]
            rfl
        have hcore := copy_frame_core b d h part
          ((d.parts_mapping.map (Option.map
            (fun p => if part ≤ p then p + 1 else p))).length)
          ((d.parts_mapping.map (Option.map
            (fun p => if part ≤ p then p + 1 else p))) ++ [some part])
          ⟨hI.1, hI.2.1, hI.2.2.1, hI.2.2.2.1, hI.2.2.2.2.1, hI.2.2.2.2.2⟩
          hh hpart hpartlt (by rw [hmlen]; omega)
          (by rw [hmlen, hshlen]; omega) hform hlive_ne hsm
        obtain ⟨hInv', hframe, hmc, hch, hbc⟩ := hcore
        refine ⟨hInv', by rw [hmlen]; omega, ?_,
          by rw [hmlen, hshlen]; omega, ?_, hch, hbc⟩
        · intro h' hl' hlv
          obtain ⟨hlv', hb'⟩ := hframe h' hl' hlv
          exact ⟨by rw [hmlen]; omega, hlv', hb'⟩
        · rw [hmc]
          simp

/-- `destroy_iterator` on a handle other than 1 preserves the invariant and
leaves every other handle's entry and base position unchanged. -/
theorem destroy_frame (b : Nat) (d d' : algorithm_data) (h h' : Nat)
    (hI : Inv b d) (h1 : h ≠ 1) (hs : d.destroy_iterator h = some d')
    (hne : h' ≠ h) :
    Inv b d' ∧ d'.parts_mapping.length = d.parts_mapping.length ∧
    d'.mval h' = d.mval h' ∧ d'.base h' = d.base h' := by
  obtain ⟨hI1, hI2, hI3, hI4, hI5, hI6⟩ := hI
  unfold algorithm_data.destroy_iterator at hs
  by_cases hh : h < d.parts_mapping.length
  case neg =>
    rw [if_neg hh] at hs
    exact absurd hs (by simp)
  rw [if_pos hh] at hs
  have hd' : d' = ⟨d.pt, d.parts_mapping.set h none⟩ := (Option.some.inj hs).symm
  subst hd'
  have hlen : (d.parts_mapping.set h none).length = d.parts_mapping.length := by
    simp
  have hmv : ∀ k, k ≠ h →
      (algorithm_data.mk d.pt (d.parts_mapping.set h none)).mval k =
      d.mval k := by
    intro k hk
    show (d.parts_mapping.set h none).getD k none =
      d.parts_mapping.getD k none
    rw [getD_set, if_neg (fun hc => hk hc.1.symm)]
  refine ⟨⟨hI1, ?_, hI3, hI4, ?_, ?_⟩, hlen, hmv h' hne, ?_⟩
  · show 2 ≤ (d.parts_mapping.set h none).length
    omega
  · show (algorithm_data.mk d.pt (d.parts_mapping.set h none)).mval 1 =
      some d.pt.parts_count
    rw [hmv 1 (Ne.symm h1)]
    exact hI5
  · intro k1 hl1 k2 hl2 hkne
    rw [show (algorithm_data.mk d.pt
        (d.parts_mapping.set h none)).parts_mapping.length =
        d.parts_mapping.length from hlen] at hl1 hl2
    show (d.parts_mapping.set h none).getD k1 none = none ∨
      (d.parts_mapping.set h none).getD k1 none ≠
      (d.parts_mapping.set h none).getD k2 none
    rw [getD_set, getD_set]
    by_cases e1 : h = k1
    · rw [if_pos ⟨e1, hh⟩]
      exact Or.inl rfl
    · rw [if_neg (fun hc => e1 hc.1)]
      by_cases e2 : h = k2
      · rw [if_pos ⟨e2, hh⟩]
        cases hv : d.mval k1 with
        | none => exact Or.inl hv
        | some v =>
          right
          rw [show d.parts_mapping.getD k1 none = d.mval k1 from rfl, hv]
          exact Option.noConfusion
      · rw [if_neg (fun hc => e2 hc.1)]
        exact hI6 k1 hl1 k2 hl2 hkne
  · exact base_congr d ⟨d.pt, d.parts_mapping.set h none⟩ h' rfl hlen
      (hmv h' hne)

/-- Swapping two rows preserves injectivity of the live bindings. -/
theorem inj_swap (M : List (Option Nat)) (h j : Nat)
    (hh : h < M.length) (hj : j < M.length)
    (hinj : ∀ h1, h1 < M.length → ∀ h2, h2 < M.length → h1 ≠ h2 →
      M.getD h1 none = none ∨ M.getD h1 none ≠ M.getD h2 none) :
    ∀ h1, h1 < (swapIdx M h j).length → ∀ h2, h2 < (swapIdx M h j).length →
      h1 ≠ h2 → (swapIdx M h j).getD h1 none = none ∨
      (swapIdx M h j).getD h1 none ≠ (swapIdx M h j).getD h2 none := by
  intro h1 hl1 h2 hl2 hne
  rw [length_swapIdx] at hl1 hl2
  rw [getD_swapIdx M h j h1 hh hj, getD_swapIdx M h j h2 hh hj]
  by_cases e1 : j = h1
  · rw [if_pos e1]
    by_cases e2 : j = h2
    · exact (hne (by omega)).elim
    · rw [if_neg e2]
      by_cases f2 : h = h2
      · rw [if_pos f2]
        exact hinj h hh j hj (by omega)
      · rw [if_neg f2]
        exact hinj h hh h2 hl2 f2
  · rw [if_neg e1]
    by_cases f1 : h = h1
    · rw [if_pos f1]
      by_cases e2 : j = h2
      · rw [if_pos e2]
        exact hinj j hj h hh (by omega)
      · rw [if_neg e2]
        by_cases f2 : h = h2
        · exact (hne (by omega)).elim
        · rw [if_neg f2]
          exact hinj j hj h2 hl2 e2
    · rw [if_neg f1]
      by_cases e2 : j = h2
      · rw [if_pos e2]
        exact hinj h1 hl1 h hh (by omega)
      · rw [if_neg e2]
        by_cases f2 : h = h2
        · rw [if_pos f2]
          exact hinj h1 hl1 j hj (by omega)
        · rw [if_neg f2]
          exact hinj h1 hl1 h2 hl2 hne

/-- `grow` with its `let` inlined (the form the frame proofs invert). -/
theorem grow_eq (p : partitioning) (i : Nat) :
    p.grow i =
      if (i + 1) % W < p.parts_count ∧ ¬ p.emptyB ((i + 1) % W) then
        some ⟨p.boundaries.set ((i + 1) % W) (p.bnd ((i + 1) % W) + 1)⟩
      else none := rfl

/-- Writing one interior boundary (index `< parts_count`) preserves the
invariant and the base of every handle not bound to that index. -/
theorem set_frame (b : Nat) (d : algorithm_data) (i w : Nat)
    (hI : Inv b d) (hilt : i < d.pt.parts_count) :
    Inv b ⟨⟨d.pt.boundaries.set i w⟩, d.parts_mapping⟩ ∧
    (∀ h', h' < d.parts_mapping.length → ∀ v', d.mval h' = some v' → v' ≠ i →
      (⟨⟨d.pt.boundaries.set i w⟩, d.parts_mapping⟩ : algorithm_data).base h' =
        d.base h') := by
  obtain ⟨hI1, hI2, hI3, hI4, hI5, hI6⟩ := hI
  have hpcd : d.pt.parts_count = d.pt.boundaries.length - 1 := rfl
  constructor
  · refine ⟨?_, hI2, ?_, ?_, ?_, hI6⟩
    · show 2 ≤ (d.pt.boundaries.set i w).length
      rw [List.length_set]
      exact hI1
    · show (partitioning.mk (d.pt.boundaries.set i w)).parts_count < W
      rw [pc_set]
      exact hI3
    · show (partitioning.mk (d.pt.boundaries.set i w)).bnd
        ((d.pt.boundaries.set i w).length - 1) = b
      rw [List.length_set, bnd_set,
        if_neg (fun hc => absurd hc.1 (by omega))]
      exact hI4
    · show d.mval 1 =
        some ((partitioning.mk (d.pt.boundaries.set i w)).parts_count)
      rw [pc_set]
      exact hI5
  · intro h' hlh' v' hv' hvne
    by_cases hvle : v' ≤ d.pt.parts_count
    · rw [base_some (⟨⟨d.pt.boundaries.set i w⟩, d.parts_mapping⟩ :
          algorithm_data) h' v' hlh' hv'
          (by show v' ≤ (partitioning.mk (d.pt.boundaries.set i w)).parts_count
              rw [pc_set]; exact hvle)
          (by show 1 ≤ (partitioning.mk (d.pt.boundaries.set i w)).parts_count
              rw [pc_set]; omega),
        base_some d h' v' hlh' hv' hvle (by omega)]
      rw [bnd_set, if_neg (fun hc => hvne hc.1.symm)]
    · rw [base_none (⟨⟨d.pt.boundaries.set i w⟩, d.parts_mapping⟩ :
          algorithm_data) h' v' hlh' hv'
          (by show (partitioning.mk (d.pt.boundaries.set i w)).parts_count < v'
              rw [pc_set]; omega),
        base_none d h' v' hlh' hv' (by omega)]

/-- Swapping the bindings of handles `h` (bound to `part`) and `j` (bound to
`u`) while writing boundary `u`, when parts `part` and `u` share a base
position: the invariant is preserved, the row count is unchanged, and every
other live handle keeps its entry live and its base position (the swap
partner `j` moves to part `part`, which resolves where part `u` did). -/
theorem swap_set_frame (b : Nat) (d : algorithm_data) (h j part u w : Nat)
    (hI : Inv b d)
    (hh : h < d.parts_mapping.length) (hjlt : j < d.parts_mapping.length)
    (hpart : d.mval h = some part) (hMj : d.mval j = some u)
    (hpartlt : part < d.pt.parts_count) (hult : u < d.pt.parts_count)
    (hne : part ≠ u) (hbe : d.pt.bnd part = d.pt.bnd u) :
    Inv b ⟨⟨d.pt.boundaries.set u w⟩, swapIdx d.parts_mapping h j⟩ ∧
    (swapIdx d.parts_mapping h j).length = d.parts_mapping.length ∧
    (∀ h', h' ≠ h → h' < d.parts_mapping.length → d.mval h' ≠ none →
      (⟨⟨d.pt.boundaries.set u w⟩, swapIdx d.parts_mapping h j⟩ :
        algorithm_data).mval h' ≠ none ∧
      (⟨⟨d.pt.boundaries.set u w⟩, swapIdx d.parts_mapping h j⟩ :
        algorithm_data).base h' = d.base h') := by
  obtain ⟨hI1, hI2, hI3, hI4, hI5, hI6⟩ := hI
  have hpcd : d.pt.parts_count = d.pt.boundaries.length - 1 := rfl
  have hne1 : h ≠ 1 := by
    intro he
    rw [he, hI5] at hpart
    have := Option.some.inj hpart
    omega
  have hjne1 : j ≠ 1 := by
    intro he
    rw [he, hI5] at hMj
    have := Option.some.inj hMj
    omega
  have hmv' : ∀ k, (⟨⟨d.pt.boundaries.set u w⟩,
      swapIdx d.parts_mapping h j⟩ : algorithm_data).mval k =
      if j = k then d.mval h else if h = k then d.mval j else d.mval k := by
    intro k
    exact getD_swapIdx d.parts_mapping h j k hh hjlt
  refine ⟨⟨?_, ?_, ?_, ?_, ?_, ?_⟩, length_swapIdx _ _ _, ?_⟩
  · show 2 ≤ (d.pt.boundaries.set u w).length
    rw [List.length_set]
    exact hI1
  · show 2 ≤ (swapIdx d.parts_mapping h j).length
    rw [length_swapIdx]
    exact hI2
  · show (partitioning.mk (d.pt.boundaries.set u w)).parts_count < W
    rw [pc_set]
    exact hI3
  · show (partitioning.mk (d.pt.boundaries.set u w)).bnd
      ((d.pt.boundaries.set u w).length - 1) = b
    rw [List.length_set, bnd_set,
      if_neg (fun hc => absurd hc.1 (by omega))]
    exact hI4
  · show (⟨⟨d.pt.boundaries.set u w⟩, swapIdx d.parts_mapping h j⟩ :
      algorithm_data).mval 1 =
      some ((partitioning.mk (d.pt.boundaries.set u w)).parts_count)
    rw [hmv' 1, if_neg hjne1, if_neg hne1, pc_set]
    exact hI5
  · intro k1 hl1 k2 hl2 hkne
    exact inj_swap d.parts_mapping h j hh hjlt hI6 k1 hl1 k2 hl2 hkne
  · intro h' hneh hlh' hlv'
    by_cases hj' : j = h'
    · have hmvj : (⟨⟨d.pt.boundaries.set u w⟩,
          swapIdx d.parts_mapping h j⟩ : algorithm_data).mval h' =
          some part := by
        rw [hmv' h', if_pos hj']
        exact hpart
      refine ⟨?_, ?_⟩
      · rw [hmvj]
        exact Option.some_ne_none part
      · rw [← hj']
        rw [base_some (⟨⟨d.pt.boundaries.set u w⟩,
            swapIdx d.parts_mapping h j⟩ : algorithm_data) j part
            (by show j < (swapIdx d.parts_mapping h j).length
                rw [length_swapIdx]; exact hjlt)
            (by rw [hmv' j, if_pos rfl]; exact hpart)
            (by show part ≤ (partitioning.mk (d.pt.boundaries.set u w)).parts_count
                rw [pc_set]; omega)
            (by show 1 ≤ (partitioning.mk (d.pt.boundaries.set u w)).parts_count
                rw [pc_set]; omega),
          base_some d j u hjlt hMj (by omega) (by omega)]
        rw [bnd_set, if_neg (fun hc => hne hc.1.symm)]
        rw [hbe]
    · have hmveq : (⟨⟨d.pt.boundaries.set u w⟩,
          swapIdx d.parts_mapping h j⟩ : algorithm_data).mval h' =
          d.mval h' := by
        rw [hmv' h', if_neg hj', if_neg (fun he => hneh he.symm)]
      refine ⟨?_, ?_⟩
      · rw [hmveq]
        exact hlv'
      · cases hv' : d.mval h' with
        | none => exact absurd hv' hlv'
        | some v' =>
          have hvnp : v' ≠ part := by
            rcases hI6 h' hlh' h hh hneh with hn | hne2
            · rw [hv'] at hn
              exact absurd hn (Option.some_ne_none v')
            · intro he
              rw [hv', hpart, he] at hne2
              exact hne2 rfl
          have hvnu : v' ≠ u := by
            rcases hI6 h' hlh' j hjlt (fun he => hj' he.symm) with hn | hne2
            · rw [hv'] at hn
              exact absurd hn (Option.some_ne_none v')
            · intro he
              rw [hv', hMj, he] at hne2
              exact hne2 rfl
          by_cases hvle : v' ≤ d.pt.parts_count
          · rw [base_some (⟨⟨d.pt.boundaries.set u w⟩,
                swapIdx d.parts_mapping h j⟩ : algorithm_data) h' v'
                (by show h' < (swapIdx d.parts_mapping h j).length
                    rw [length_swapIdx]; exact hlh')
                (by rw [hmveq]; exact hv')
                (by show v' ≤
                      (partitioning.mk (d.pt.boundaries.set u w)).parts_count
                    rw [pc_set]; exact hvle)
                (by show 1 ≤
                      (partitioning.mk (d.pt.boundaries.set u w)).parts_count
                    rw [pc_set]; omega),
              base_some d h' v' hlh' hv' hvle (by omega)]
            rw [bnd_set, if_neg (fun hc => hvnu hc.1.symm)]
          · rw [base_none (⟨⟨d.pt.boundaries.set u w⟩,
                swapIdx d.parts_mapping h j⟩ : algorithm_data) h' v'
                (by show h' < (swapIdx d.parts_mapping h j).length
                    rw [length_swapIdx]; exact hlh')
                (by rw [hmveq]; exact hv')
                (by show (partitioning.mk (d.pt.boundaries.set u w)).parts_count
                      < v'
                    rw [pc_set]; omega),
              base_none d h' v' hlh' hv' (by omega)]

/-- `increment` preserves the invariant and the row count, and leaves every
other live handle live and at its position (the only rebinding is the swap
with the partner handle, whose resolved position is unchanged because the
parts between its old and new bindings are all empty). -/
theorem increment_frame (b : Nat) (d d' : algorithm_data) (h : Nat)
    (hI : Inv b d) (hs : d.increment h = some d') :
    Inv b d' ∧ d'.parts_mapping.length = d.parts_mapping.length ∧
    ∀ h', h' ≠ h → h' < d.parts_mapping.length → d.mval h' ≠ none →
      d'.mval h' ≠ none ∧ d'.base h' = d.base h' := by
  obtain ⟨hI1, hI2, hI3, hI4, hI5, hI6⟩ := hI
  unfold algorithm_data.increment at hs
  by_cases hh : h < d.parts_mapping.length
  case neg =>
    rw [if_neg hh] at hs
    exact Option.noConfusion hs
  rw [if_pos hh] at hs
  cases hpart : d.mval h with
  | none =>
    rw [hpart] at hs
    have hs1 : (none : Option algorithm_data) = some d' := hs
    exact Option.noConfusion hs1
  | some part =>
    rw [hpart] at hs
    have hs1 : (match d.pt.part part, d.base 1 with
        | some pr, some b1 =>
          if pr.1 ≠ b1 then
            if ¬ d.pt.emptyB part then
              (d.pt.grow (sub1w part)).map
                (fun pt' => (⟨pt', d.parts_mapping⟩ : algorithm_data))
            else
              if algorithm_data.scanNE d.pt (part + 1) < d.pt.parts_count then
                match findIdxO
                    (fun x => x == some (algorithm_data.scanNE d.pt (part + 1)))
                    d.parts_mapping with
                | some j =>
                  (d.pt.grow
                      (sub1w (algorithm_data.scanNE d.pt (part + 1)))).map
                    (fun pt' =>
                      (⟨pt', swapIdx d.parts_mapping h j⟩ : algorithm_data))
                | none => none
              else none
          else none
        | _, _ => none) = some d' := hs
    cases hpp : d.pt.part part with
    | none =>
      rw [hpp] at hs1
      have hs2 : (none : Option algorithm_data) = some d' := hs1
      exact Option.noConfusion hs2
    | some pr =>
      cases hb1 : d.base 1 with
      | none =>
        rw [hpp, hb1] at hs1
        have hs2 : (none : Option algorithm_data) = some d' := hs1
        exact Option.noConfusion hs2
      | some b1 =>
        rw [hpp, hb1] at hs1
        have hs2 : (if pr.1 ≠ b1 then
            if ¬ d.pt.emptyB part then
              (d.pt.grow (sub1w part)).map
                (fun pt' => (⟨pt', d.parts_mapping⟩ : algorithm_data))
            else
              if algorithm_data.scanNE d.pt (part + 1) < d.pt.parts_count then
                match findIdxO
                    (fun x => x == some (algorithm_data.scanNE d.pt (part + 1)))
                    d.parts_mapping with
                | some j =>
                  (d.pt.grow
                      (sub1w (algorithm_data.scanNE d.pt (part + 1)))).map
                    (fun pt' =>
                      (⟨pt', swapIdx d.parts_mapping h j⟩ : algorithm_data))
                | none => none
              else none
          else none) = some d' := hs1
        by_cases hprb : pr.1 ≠ b1
        case neg =>
          rw [if_neg hprb] at hs2
          exact Option.noConfusion hs2
        rw [if_pos hprb] at hs2
        have hpartlt : part < d.pt.parts_count := by
          by_contra hc
          unfold partitioning.part at hpp
          rw [if_neg hc] at hpp
          exact Option.noConfusion hpp
        by_cases hemp : d.pt.emptyB part
        case neg =>
          rw [if_pos hemp] at hs2
          have hgrow : d.pt.grow (sub1w part) =
              some ⟨d.pt.boundaries.set part (d.pt.bnd part + 1)⟩ := by
            rw [grow_eq, sub1w_add_one_mod part (by omega),
              if_pos ⟨hpartlt, hemp⟩]
          rw [hgrow] at hs2
          have hs3 : some (⟨⟨d.pt.boundaries.set part (d.pt.bnd part + 1)⟩,
              d.parts_mapping⟩ : algorithm_data) = some d' := hs2
          have hd' : d' = ⟨⟨d.pt.boundaries.set part (d.pt.bnd part + 1)⟩,
              d.parts_mapping⟩ := (Option.some.inj hs3).symm
          subst hd'
          obtain ⟨hSF1, hSF2⟩ := set_frame b d part (d.pt.bnd part + 1)
            ⟨hI1, hI2, hI3, hI4, hI5, hI6⟩ hpartlt
          refine ⟨hSF1, rfl, ?_⟩
          intro h' hneh hlh' hlv'
          refine ⟨hlv', ?_⟩
          cases hv' : d.mval h' with
          | none => exact absurd hv' hlv'
          | some v' =>
            have hvnp : v' ≠ part := by
              rcases hI6 h' hlh' h hh hneh with hn | hne2
              · rw [hv'] at hn
                exact absurd hn (Option.some_ne_none v')
              · intro he
                rw [hv', hpart, he] at hne2
                exact hne2 rfl
            exact hSF2 h' hlh' v' hv' hvnp
        case pos =>
          rw [if_neg (not_not_intro hemp)] at hs2
          by_cases hq : algorithm_data.scanNE d.pt (part + 1) <
              d.pt.parts_count
          case neg =>
            rw [if_neg hq] at hs2
            exact Option.noConfusion hs2
          rw [if_pos hq] at hs2
          cases hfind : findIdxO
              (fun x => x == some (algorithm_data.scanNE d.pt (part + 1)))
              d.parts_mapping with
          | none =>
            rw [hfind] at hs2
            have hs3 : (none : Option algorithm_data) = some d' := hs2
            exact Option.noConfusion hs3
          | some j =>
            rw [hfind] at hs2
            have hqge : part + 1 ≤ algorithm_data.scanNE d.pt (part + 1) :=
              scanNE_ge d.pt (part + 1)
            have hqne : ¬ d.pt.emptyB (algorithm_data.scanNE d.pt (part + 1)) :=
              scanNE_stop d.pt (part + 1) hq
            have hjfacts := findIdxO_some
              (fun x => x == some (algorithm_data.scanNE d.pt (part + 1)))
              none d.parts_mapping j hfind
            have hMj : d.mval j =
                some (algorithm_data.scanNE d.pt (part + 1)) := by
              show d.parts_mapping.getD j none =
                some (algorithm_data.scanNE d.pt (part + 1))
              exact eq_of_beq hjfacts.2
            have hgrow : d.pt.grow
                (sub1w (algorithm_data.scanNE d.pt (part + 1))) =
                some ⟨d.pt.boundaries.set
                  (algorithm_data.scanNE d.pt (part + 1))
                  (d.pt.bnd (algorithm_data.scanNE d.pt (part + 1)) + 1)⟩ := by
              rw [grow_eq, sub1w_add_one_mod _ (by omega), if_pos ⟨hq, hqne⟩]
            rw [hgrow] at hs2
            have hs3 : some (⟨⟨d.pt.boundaries.set
                (algorithm_data.scanNE d.pt (part + 1))
                (d.pt.bnd (algorithm_data.scanNE d.pt (part + 1)) + 1)⟩,
                swapIdx d.parts_mapping h j⟩ : algorithm_data) =
                some d' := hs2
            have hd' : d' = ⟨⟨d.pt.boundaries.set
                (algorithm_data.scanNE d.pt (part + 1))
                (d.pt.bnd (algorithm_data.scanNE d.pt (part + 1)) + 1)⟩,
                swapIdx d.parts_mapping h j⟩ := (Option.some.inj hs3).symm
            subst hd'
            have hempties : ∀ k, part ≤ k →
                k < algorithm_data.scanNE d.pt (part + 1) → d.pt.emptyB k := by
              intro k hk1 hk2
              rcases Nat.eq_or_lt_of_le hk1 with he | hlt
              · rw [← he]
                exact hemp
              · exact scanNE_empty d.pt (part + 1) k (by omega) hk2
            have hbe : d.pt.bnd part =
                d.pt.bnd (algorithm_data.scanNE d.pt (part + 1)) :=
              bnd_eq_of_empty_range d.pt part
                (algorithm_data.scanNE d.pt (part + 1)) (by omega) hempties
            obtain ⟨hW1, hW2, hW3⟩ := swap_set_frame b d h j part
              (algorithm_data.scanNE d.pt (part + 1))
              (d.pt.bnd (algorithm_data.scanNE d.pt (part + 1)) + 1)
              ⟨hI1, hI2, hI3, hI4, hI5, hI6⟩ hh hjfacts.1 hpart hMj
              hpartlt hq (by omega) hbe
            exact ⟨hW1, hW2, hW3⟩

/-- `decrement` preserves the invariant and the row count, and leaves every
other live handle live and at its position (symmetric to `increment_frame`:
the swap partner is rebound across a run of empty parts). -/
theorem decrement_frame (b : Nat) (d d' : algorithm_data) (h : Nat)
    (hI : Inv b d) (hs : d.decrement h = some d') :
    Inv b d' ∧ d'.parts_mapping.length = d.parts_mapping.length ∧
    ∀ h', h' ≠ h → h' < d.parts_mapping.length → d.mval h' ≠ none →
      d'.mval h' ≠ none ∧ d'.base h' = d.base h' := by
  obtain ⟨hI1, hI2, hI3, hI4, hI5, hI6⟩ := hI
  unfold algorithm_data.decrement at hs
  by_cases hh : h < d.parts_mapping.length
  case neg =>
    rw [if_neg hh] at hs
    exact Option.noConfusion hs
  rw [if_pos hh] at hs
  cases hpart : d.mval h with
  | none =>
    rw [hpart] at hs
    have hs1 : (none : Option algorithm_data) = some d' := hs
    exact Option.noConfusion hs1
  | some part =>
    rw [hpart] at hs
    have hs1 : (if 0 < part then
        match d.pt.part part, d.base 0 with
        | some pr, some b0 =>
          if pr.1 ≠ b0 then
            if 0 < part ∧ ¬ d.pt.emptyB (part - 1) then
              (d.pt.shrink (part - 1)).map
                (fun pt' => (⟨pt', d.parts_mapping⟩ : algorithm_data))
            else
              if algorithm_data.scanPrev d.pt (part - 1) < d.pt.parts_count then
                if ¬ d.pt.emptyB (algorithm_data.scanPrev d.pt (part - 1)) then
                  match findIdxO
                      (fun x => x ==
                        some (algorithm_data.scanPrev d.pt (part - 1) + 1))
                      d.parts_mapping with
                  | some j =>
                    (d.pt.shrink (algorithm_data.scanPrev d.pt (part - 1))).map
                      (fun pt' =>
                        (⟨pt', swapIdx d.parts_mapping h j⟩ : algorithm_data))
                  | none => none
                else none
              else none
          else none
        | _, _ => none
      else none) = some d' := hs
    by_cases hpos : 0 < part
    case neg =>
      rw [if_neg hpos] at hs1
      exact Option.noConfusion hs1
    rw [if_pos hpos] at hs1
    cases hpp : d.pt.part part with
    | none =>
      rw [hpp] at hs1
      have hs2 : (none : Option algorithm_data) = some d' := hs1
      exact Option.noConfusion hs2
    | some pr =>
      cases hb0 : d.base 0 with
      | none =>
        rw [hpp, hb0] at hs1
        have hs2 : (none : Option algorithm_data) = some d' := hs1
        exact Option.noConfusion hs2
      | some b0 =>
        rw [hpp, hb0] at hs1
        have hs2 : (if pr.1 ≠ b0 then
            if 0 < part ∧ ¬ d.pt.emptyB (part - 1) then
              (d.pt.shrink (part - 1)).map
                (fun pt' => (⟨pt', d.parts_mapping⟩ : algorithm_data))
            else
              if algorithm_data.scanPrev d.pt (part - 1) < d.pt.parts_count then
                if ¬ d.pt.emptyB (algorithm_data.scanPrev d.pt (part - 1)) then
                  match findIdxO
                      (fun x => x ==
                        some (algorithm_data.scanPrev d.pt (part - 1) + 1))
                      d.parts_mapping with
                  | some j =>
                    (d.pt.shrink (algorithm_data.scanPrev d.pt (part - 1))).map
                      (fun pt' =>
                        (⟨pt', swapIdx d.parts_mapping h j⟩ : algorithm_data))
                  | none => none
                else none
              else none
          else none) = some d' := hs1
        by_cases hprb : pr.1 ≠ b0
        case neg =>
          rw [if_neg hprb] at hs2
          exact Option.noConfusion hs2
        rw [if_pos hprb] at hs2
        have hpartlt : part < d.pt.parts_count := by
          by_contra hc
          unfold partitioning.part at hpp
          rw [if_neg hc] at hpp
          exact Option.noConfusion hpp
        by_cases hemp : d.pt.emptyB (part - 1)
        case neg =>
          rw [if_pos ⟨hpos, hemp⟩] at hs2
          have hshrink : d.pt.shrink (part - 1) =
              some ⟨d.pt.boundaries.set part (d.pt.bnd part - 1)⟩ := by
            unfold partitioning.shrink
            rw [show part - 1 + 1 = part by omega]
            rw [if_pos ⟨hpartlt, hemp⟩]
          rw [hshrink] at hs2
          have hs3 : some (⟨⟨d.pt.boundaries.set part (d.pt.bnd part - 1)⟩,
              d.parts_mapping⟩ : algorithm_data) = some d' := hs2
          have hd' : d' = ⟨⟨d.pt.boundaries.set part (d.pt.bnd part - 1)⟩,
              d.parts_mapping⟩ := (Option.some.inj hs3).symm
          subst hd'
          obtain ⟨hSF1, hSF2⟩ := set_frame b d part (d.pt.bnd part - 1)
            ⟨hI1, hI2, hI3, hI4, hI5, hI6⟩ hpartlt
          refine ⟨hSF1, rfl, ?_⟩
          intro h' hneh hlh' hlv'
          refine ⟨hlv', ?_⟩
          cases hv' : d.mval h' with
          | none => exact absurd hv' hlv'
          | some v' =>
            have hvnp : v' ≠ part := by
              rcases hI6 h' hlh' h hh hneh with hn | hne2
              · rw [hv'] at hn
                exact absurd hn (Option.some_ne_none v')
              · intro he
                rw [hv', hpart, he] at hne2
                exact hne2 rfl
            exact hSF2 h' hlh' v' hv' hvnp
        case pos =>
          rw [if_neg (fun hc => hc.2 hemp)] at hs2
          by_cases hr : algorithm_data.scanPrev d.pt (part - 1) <
              d.pt.parts_count
          case neg =>
            rw [if_neg hr] at hs2
            exact Option.noConfusion hs2
          rw [if_pos hr] at hs2
          by_cases hre : d.pt.emptyB (algorithm_data.scanPrev d.pt (part - 1))
          case pos =>
            rw [if_neg (not_not_intro hre)] at hs2
            exact Option.noConfusion hs2
          rw [if_pos hre] at hs2
          cases hfind : findIdxO
              (fun x => x ==
                some (algorithm_data.scanPrev d.pt (part - 1) + 1))
              d.parts_mapping with
          | none =>
            rw [hfind] at hs2
            have hs3 : (none : Option algorithm_data) = some d' := hs2
            exact Option.noConfusion hs3
          | some j =>
            rw [hfind] at hs2
            have hRle : algorithm_data.scanPrev d.pt (part - 1) ≤ part - 1 :=
              scanPrev_le d.pt (part - 1)
            have hRlt : algorithm_data.scanPrev d.pt (part - 1) < part - 1 := by
              rcases Nat.eq_or_lt_of_le hRle with he | hlt
              · exact absurd hemp (he ▸ hre)
              · exact hlt
            have hjfacts := findIdxO_some
              (fun x => x ==
                some (algorithm_data.scanPrev d.pt (part - 1) + 1))
              none d.parts_mapping j hfind
            have hMj : d.mval j =
                some (algorithm_data.scanPrev d.pt (part - 1) + 1) := by
              show d.parts_mapping.getD j none =
                some (algorithm_data.scanPrev d.pt (part - 1) + 1)
              exact eq_of_beq hjfacts.2
            have hshrink : d.pt.shrink
                (algorithm_data.scanPrev d.pt (part - 1)) =
                some ⟨d.pt.boundaries.set
                  (algorithm_data.scanPrev d.pt (part - 1) + 1)
                  (d.pt.bnd (algorithm_data.scanPrev d.pt (part - 1) + 1)
                    - 1)⟩ := by
              unfold partitioning.shrink
              rw [if_pos ⟨by omega, hre⟩]
            rw [hshrink] at hs2
            have hs3 : some (⟨⟨d.pt.boundaries.set
                (algorithm_data.scanPrev d.pt (part - 1) + 1)
                (d.pt.bnd (algorithm_data.scanPrev d.pt (part - 1) + 1) - 1)⟩,
                swapIdx d.parts_mapping h j⟩ : algorithm_data) =
                some d' := hs2
            have hd' : d' = ⟨⟨d.pt.boundaries.set
                (algorithm_data.scanPrev d.pt (part - 1) + 1)
                (d.pt.bnd (algorithm_data.scanPrev d.pt (part - 1) + 1) - 1)⟩,
                swapIdx d.parts_mapping h j⟩ := (Option.some.inj hs3).symm
            subst hd'
            have hempties : ∀ k,
                algorithm_data.scanPrev d.pt (part - 1) + 1 ≤ k → k < part →
                d.pt.emptyB k := by
              intro k hk1 hk2
              exact scanPrev_empty d.pt (part - 1) k (by omega) (by omega)
            have hbe : d.pt.bnd part =
                d.pt.bnd (algorithm_data.scanPrev d.pt (part - 1) + 1) :=
              (bnd_eq_of_empty_range d.pt
                (algorithm_data.scanPrev d.pt (part - 1) + 1) part (by omega)
                hempties).symm
            obtain ⟨hW1, hW2, hW3⟩ := swap_set_frame b d h j part
              (algorithm_data.scanPrev d.pt (part - 1) + 1)
              (d.pt.bnd (algorithm_data.scanPrev d.pt (part - 1) + 1) - 1)
              ⟨hI1, hI2, hI3, hI4, hI5, hI6⟩ hh hjfacts.1 hpart hMj
              hpartlt (by omega) (by omega) hbe
            exact ⟨hW1, hW2, hW3⟩

/-- Frame property of a whole advance sequence: a live handle moved by none
of the advances stays live and keeps its base position. -/
theorem run_moves_frame (b : Nat) (moves : List (Move × Nat)) :
    ∀ (d d' : algorithm_data) (h' : Nat), Inv b d →
    run_moves d moves = some d' →
    (∀ mv ∈ moves, (mv : Move × Nat).2 ≠ h') →
    h' < d.parts_mapping.length → d.mval h' ≠ none →
    Inv b d' ∧ d'.parts_mapping.length = d.parts_mapping.length ∧
    d'.mval h' ≠ none ∧ d'.base h' = d.base h' := by
  induction moves with
  | nil =>
    intro d d' h' hI hs _ hlh hlv
    have hs1 : some d = some d' := hs
    have hd : d = d' := Option.some.inj hs1
    subst hd
    exact ⟨hI, rfl, hlv, rfl⟩
  | cons mv rest ih =>
    intro d d' h' hI hs hmem hlh hlv
    have hs1 : (match apply_move d mv with
        | none => none
        | some d1 => run_moves d1 rest) = some d' := hs
    cases hap : apply_move d mv with
    | none =>
      rw [hap] at hs1
      have hs2 : (none : Option algorithm_data) = some d' := hs1
      exact Option.noConfusion hs2
    | some d1 =>
      rw [hap] at hs1
      have hs2 : run_moves d1 rest = some d' := hs1
      have hstep : Inv b d1 ∧
          d1.parts_mapping.length = d.parts_mapping.length ∧
          ∀ k, k ≠ mv.2 → k < d.parts_mapping.length → d.mval k ≠ none →
            d1.mval k ≠ none ∧ d1.base k = d.base k := by
        cases mv with
        | mk t mh =>
          cases t with
          | inc =>
            have hap1 : d.increment mh = some d1 := hap
            exact increment_frame b d d1 mh hI hap1
          | dec =>
            have hap1 : d.decrement mh = some d1 := hap
            exact decrement_frame b d d1 mh hI hap1
      obtain ⟨hA, hB, hC⟩ := hstep
      have hne : h' ≠ mv.2 := fun he =>
        (hmem mv (List.mem_cons_self mv rest)) he.symm
      obtain ⟨hlv1, hbe1⟩ := hC h' hne hlh hlv
      obtain ⟨hA2, hB2, hC2, hD2⟩ := ih d1 d' h' hA hs2
        (fun m hm => hmem m (List.mem_cons_of_mem mv hm))
        (by rw [hB]; exact hlh) hlv1
      refine ⟨hA2, ?_, hC2, ?_⟩
      · rw [hB2, hB]
      · rw [hD2, hbe1]

/-- Every cursor-reachable table state satisfies the handle-table invariant,
and bootstrap handle 0 still resolves to the start of the range. -/
theorem CReach_Inv (a b : Nat) (d : algorithm_data) (hR : CReach a b d) :
    Inv b d ∧ d.base 0 = some a := by
  induction hR with
  | init =>
    constructor
    · refine ⟨?_, ?_, ?_, ?_, ?_, ?_⟩
      · show (2 : Nat) ≤ 2
        exact Nat.le_refl 2
      · show (2 : Nat) ≤ 2
        exact Nat.le_refl 2
      · show (1 : Nat) < W
        norm_num [W]
      · show ([a, b] : List Nat).getD 1 0 = b
        rfl
      · rfl
      · show ∀ h1, h1 < ([some 0, some 1] : List (Option Nat)).length →
          ∀ h2, h2 < ([some 0, some 1] : List (Option Nat)).length →
          h1 ≠ h2 →
          ([some 0, some 1] : List (Option Nat)).getD h1 none = none ∨
          ([some 0, some 1] : List (Option Nat)).getD h1 none ≠
            ([some 0, some 1] : List (Option Nat)).getD h2 none
        decide
    · exact base_some (algorithm_data.init a b) 0 0
        (show (0 : Nat) < 2 by decide) rfl (Nat.zero_le _)
        (show (1 : Nat) ≤ 1 by decide)
  | step hR' hstep ih =>
    obtain ⟨hI, hb0⟩ := ih
    obtain ⟨h0lt, h0lv⟩ := live_of_base_some _ 0 a hb0
    cases hstep with
    | copy h r hc hsm =>
      obtain ⟨hI', hlen', hframe, _⟩ := copy_frame b _ _ h r hI hc hsm
      refine ⟨hI', ?_⟩
      rw [(hframe 0 h0lt h0lv).2.2]
      exact hb0
    | incr h hn0 hn1 hsI =>
      obtain ⟨hI', hlen', hframe⟩ := increment_frame b _ _ h hI hsI
      obtain ⟨hlv', hbe'⟩ := hframe 0 (fun he => hn0 he.symm) h0lt h0lv
      refine ⟨hI', ?_⟩
      rw [hbe']
      exact hb0
    | decr h hn0 hn1 hsD =>
      obtain ⟨hI', hlen', hframe⟩ := decrement_frame b _ _ h hI hsD
      obtain ⟨hlv', hbe'⟩ := hframe 0 (fun he => hn0 he.symm) h0lt h0lv
      refine ⟨hI', ?_⟩
      rw [hbe']
      exact hb0
    | destroy h hn0 hn1 hsX =>
      obtain ⟨hI', hlen', hmv', hbe'⟩ := destroy_frame b _ _ h 0 hI hn1 hsX
        (fun he => hn0 he.symm)
      refine ⟨hI', ?_⟩
      rw [hbe']
      exact hb0

/-- C3: advancing one cursor never repositions another.  In any reachable
table state, after `copy_iterator` makes a new handle `c` from `h`, take any
handle `h'` live in the post-copy table (this covers both the original `h`
and the fresh copy `c`) and any sequence of increments/decrements applied
only to other handles.  Then `h'` still resolves to what it resolved to
right after the copy; if `h'` is the copy, that is where the original
resolved before the copy, and if `h'` already existed before the copy, that
is where it resolved before the copy.  Instantiating `h' := h` with moves on
`c` gives the forward direction; `h' := c` with moves on `h` gives the
"vice versa" direction. -/
theorem cursor_independence (a b : Nat) (d : algorithm_data)
    (hR : CReach a b d) (h c : Nat) (d1 d2 : algorithm_data)
    (hcopy : d.copy_iterator h = some (d1, c))
    (hsm : d1.pt.parts_count < W)
    (moves : List (Move × Nat))
    (hrun : run_moves d1 moves = some d2)
    (h' : Nat) (hne : ∀ mv ∈ moves, (mv : Move × Nat).2 ≠ h')
    (hlt : h' < d1.parts_mapping.length) (hlv : d1.mval h' ≠ none) :
    d2.base h' = d1.base h' ∧
    (h' = c → d2.base h' = d.base h) ∧
    (h' < d.parts_mapping.length → d.mval h' ≠ none →
      d2.base h' = d.base h') := by
  obtain ⟨hI, _⟩ := CReach_Inv a b d hR
  obtain ⟨hI1, hlen1, hframe, hclt, hclv, hcneh, hcbase⟩ :=
    copy_frame b d d1 h c hI hcopy hsm
  obtain ⟨hI2, hlen2, hlv2, hbe2⟩ := run_moves_frame b moves d1 d2 h' hI1
    hrun hne hlt hlv
  refine ⟨hbe2, ?_, ?_⟩
  · intro hec
    rw [hbe2, hec, hcbase]
  · intro hlt0 hlv0
    rw [hbe2, (hframe h' hlt0 hlv0).2.2]

theorem cursor_independence_witness :
    ((algorithm_data.init 0 2).copy_iterator 0 =
      some (⟨⟨[0, 0, 2]⟩, [some 1, some 2, some 0]⟩, 2)) ∧
    (run_moves ⟨⟨[0, 0, 2]⟩, [some 1, some 2, some 0]⟩ [(Move.inc, 0)] =
      some ⟨⟨[0, 1, 2]⟩, [some 1, some 2, some 0]⟩) ∧
    ((⟨⟨[0, 1, 2]⟩, [some 1, some 2, some 0]⟩ : algorithm_data).base 2 =
      (⟨⟨[0, 0, 2]⟩, [some 1, some 2, some 0]⟩ : algorithm_data).base 2) ∧
    ((⟨⟨[0, 1, 2]⟩, [some 1, some 2, some 0]⟩ : algorithm_data).base 2 =
      (algorithm_data.init 0 2).base 0) := by
  have h := cursor_independence 0 2 (algorithm_data.init 0 2) CReach.init 0 2
    ⟨⟨[0, 0, 2]⟩, [some 1, some 2, some 0]⟩
    ⟨⟨[0, 1, 2]⟩, [some 1, some 2, some 0]⟩
    (by decide) (by decide) [(Move.inc, 0)] (by decide) 2
    (by decide) (by decide) (by decide)
  exact ⟨by decide, by decide, h.1, h.2.1 rfl⟩

/-- C10: in every reachable table state, bootstrap handle 0 resolves to the
start of the underlying range, and bootstrap handle 1 stays bound to the
sentinel value `parts_count()` and resolves to the end of the range — no
copy shift or advance swap ever moves them. -/
theorem bootstrap_handles_pinned (a b : Nat) (d : algorithm_data)
    (hR : CReach a b d) :
    d.base 0 = some a ∧ d.mval 1 = some d.pt.parts_count ∧
    d.base 1 = some b := by
  obtain ⟨hI, hb0⟩ := CReach_Inv a b d hR
  obtain ⟨hI1, hI2, hI3, hI4, hI5, hI6⟩ := hI
  have hpcd : d.pt.parts_count = d.pt.boundaries.length - 1 := rfl
  refine ⟨hb0, hI5, ?_⟩
  rw [base_some d 1 d.pt.parts_count (by omega) hI5 (Nat.le_refl _)
    (by omega)]
  rw [hpcd, hI4]

theorem bootstrap_handles_pinned_witness :
    (algorithm_data.init 0 3).base 0 = some 0 ∧
    (algorithm_data.init 0 3).mval 1 =
      some (algorithm_data.init 0 3).pt.parts_count ∧
    (algorithm_data.init 0 3).base 1 = some 3 :=
  bootstrap_handles_pinned 0 3 (algorithm_data.init 0 3) CReach.init

end Positionless
